import Mathlib

/-!
# ADC harmonics experiment: a shallow embedding of `main.cpp`

The program synthesises a sampled waveform (a fundamental plus harmonics, with a
random least-significant-bit error on every sample), sums the components, runs a
forward FFT and extracts the peaks.

Conventions of the embedding.

* `float` and `double` values are read as elements of an arbitrary linearly
  ordered field `F` with a floor function (`ℚ` and `ℝ` are instances), so every
  statement about values is a statement of exact arithmetic.  The decimal
  literals of the source (`0.1221`, `3.14159265359f`, `360.0f`, ...) are read as
  the rationals they spell.
* `sin` and `sqrt` come from the C library; they are passed in as a `Libm F`.
* The process-wide constants are collected in a `Config`; `adcConfig` holds the
  values of the source.
* The random source is a stream of integers; drawing reads the head of the
  stream and continues with its tail.
* `std::vector` is a `List`; a read or write outside a sequence or buffer makes
  the enclosing function return `none`.
* `std::map<float, float>` is an association list kept sorted by key.
-/

set_option linter.unusedSectionVars false

namespace AdcHarmonics

/-! ## Configuration and external functions -/

/-- The constants declared at the top of `main.cpp`. `harmonics` lists the
entries of the `std::map` in iteration order (ascending key); each entry is
`(key, value)`. -/
structure Config where
  sampling : Nat
  lsbError : Nat
  window : Nat
  fundamentalFrequency : Nat
  harmonics : List (Int × Int)

/-- The values of the source: 4000 Hz sampling, 3 LSB of error, window of 800,
50 Hz fundamental, and the harmonics map. -/
def adcConfig : Config where
  sampling := 4000
  lsbError := 3
  window := 800
  fundamentalFrequency := 50
  harmonics := [(2, 50), (4, 25), (5, 10), (39, 5), (40, 10)]

/-- The local `int samples = sampling / fundamentalFrequency;` of `makeWave`. -/
def Config.samples (cfg : Config) : Nat :=
  cfg.sampling / cfg.fundamentalFrequency

/-- The two functions of the C math library that the program calls. -/
structure Libm (F : Type) where
  sin : F → F
  sqrt : F → F

/-- The random source: the stream of integers that successive calls of
`randomLsb(numberGenerator)` return. -/
abbrev RandomSource := Nat → Int

/-- The stream left after one draw. -/
def RandomSource.tail (rng : RandomSource) : RandomSource :=
  fun n => rng (n + 1)

/-- The stream left after `k` draws. -/
def RandomSource.drop (rng : RandomSource) (k : Nat) : RandomSource :=
  fun n => rng (n + k)

section Values

variable {F : Type} [LinearOrderedField F] [FloorRing F]

/-- The constant `const float stepSize = 0.1221;`. -/
def stepSize : F := 1221 / 10000

/-- The functions `std::round` and `roundf`: the nearest integer, halves away from zero. -/
def cRound (x : F) : Int :=
  if 0 ≤ x then ⌊x + 1 / 2⌋ else ⌈x - 1 / 2⌉

/-- The function `roundUp(value, multiple)`: the value itself for a zero step, otherwise
`round(value / multiple) * multiple`. -/
def roundUp (value multiple : F) : F :=
  if multiple = 0 then value
  else (cRound (value / multiple) : F) * multiple

/-! ## makeWave -/

/-- The value `double radians` of the loop body of `makeWave` for loop variable `i`:
`i * (360.0f / samples)` degrees, times `3.14159265359f / 180.0f`. -/
def radiansAt (cfg : Config) (i : Nat) : F :=
  ((i : F) * (360 / (cfg.samples : F))) * ((314159265359 / 100000000000) / 180)

/-- The `for` loop of `makeWave`, one iteration per unit of fuel. The state is
the loop variable `i`, `windowCount`, the samples pushed so far and the random
source. The loop ends when its condition `i <= samples` fails or at the
`break`; `none` means the fuel ran out first. -/
def makeWaveLoop (cfg : Config) (L : Libm F) (mag position : Int) :
    Nat → Nat → Nat → List F → RandomSource → Option (List F × RandomSource)
  | 0, _, _, _, _ => none
  | fuel + 1, i, windowCount, wave, rng =>
    if i ≤ cfg.samples then
      let radians : F := radiansAt cfg i
      let value : F := (mag : F) * L.sin ((position : F) * radians)
      let _quantized : F := roundUp value stepSize
      let randomLsbValue : Int := rng 0
      let lsb : F := stepSize * (randomLsbValue : F)
      let value : F := value + lsb
      let wave := wave ++ [value]
      let windowCount := windowCount + 1
      let i := if i = cfg.samples ∧ windowCount < cfg.window then 0 else i
      if windowCount = cfg.window then some (wave, rng.tail)
      else makeWaveLoop cfg L mag position fuel (i + 1) windowCount wave rng.tail
    else some (wave, rng)

/-- The function `makeWave(mag, position)`: the loop started at `i = 0`, `windowCount = 0`
with an empty vector. Every iteration pushes one sample and the loop leaves
after at most `max window (samples + 1)` of them, so the fuel given here is
never used up (`makeWaveLoop_fuel` below). -/
def makeWave (cfg : Config) (L : Libm F) (mag position : Int) (rng : RandomSource) :
    Option (List F × RandomSource) :=
  makeWaveLoop cfg L mag position (cfg.window + cfg.samples + 2) 0 0 [] rng

/-! ## formComplex -/

/-- The reads `wave[i]` of every sequence of the pack, in order; `none` when
one of them is outside its sequence. -/
def readAll (i : Nat) : List (List F) → Option (List F)
  | [] => some []
  | w :: ws =>
    match w[i]?, readAll i ws with
    | some x, some xs => some (x :: xs)
    | _, _ => none

/-- The fold `(wave[i] + ...)`: a right fold over a non-empty pack. -/
def foldPlus : List F → F
  | [] => 0
  | [x] => x
  | x :: y :: rest => x + foldPlus (y :: rest)

/-- The loop of `formComplex` from index `i`, with `k` iterations left. -/
def formComplexLoop (waves : List (List F)) : Nat → Nat → List F → Option (List F)
  | 0, _, out => some out
  | k + 1, i, out =>
    match readAll i waves with
    | none => none
    | some vals =>
      let value : F := (cRound (foldPlus vals * 10000) : F) / 10000
      formComplexLoop waves k (i + 1) (out ++ [value])

/-- The function `formComplex(wave...)`: one output entry for every `i` with `0 <= i <= window`.
The fold expression has no value for the empty pack, so an empty pack gives
`none`. -/
def formComplex (cfg : Config) (waves : List (List F)) : Option (List F) :=
  if waves = [] then none
  else formComplexLoop waves (cfg.window + 1) 0 []

/-! ## fft -/

/-- The struct `kiss_fft_cpx`: a complex number with real part `r` and imaginary part `i`. -/
structure kiss_fft_cpx (F : Type) where
  r : F
  i : F

/-- The transform primitive of KissFFT, as far as `fft` uses it:
`allocates nfft` tells whether `kiss_fft_alloc(nfft, 0, nullptr, nullptr)`
returns a configuration rather than null, and `transform nfft fin` is the
content `kiss_fft` leaves in its output buffer for the input buffer `fin`. -/
structure KissFft (F : Type) where
  allocates : Nat → Bool
  transform : Nat → List (kiss_fft_cpx F) → List (kiss_fft_cpx F)

/-- How a call of `fft` ends: it returns a vector, or it prints a message and
leaves the process with an exit status. -/
inductive Outcome (α : Type) where
  | returned (value : α)
  | exited (printed : String) (status : Int)

/-- The assignment `buf[i] = v` on a fixed-size buffer; `none` when `i` is not
an index of the buffer. -/
def writeAt {α : Type} (buf : List α) (i : Nat) (v : α) : Option (List α) :=
  if i < buf.length then some (buf.set i v) else none

/-- The staging loop of `fft`, `for(int i = 0; i < complex.size(); i++)`, from
index `i` with `k` iterations left, writing `in[i]`. -/
def stageLoop (complex : List F) :
    Nat → Nat → List (kiss_fft_cpx F) → Option (List (kiss_fft_cpx F))
  | 0, _, buf => some buf
  | k + 1, i, buf =>
    match writeAt buf i ⟨complex.getD i 0, 0⟩ with
    | none => none
    | some buf => stageLoop complex k (i + 1) buf

/-- The function `fft(complex)`. The buffers `in[window]` and `out[window]` start with the
indeterminate contents `inInit` and `outInit`. -/
def fft (cfg : Config) (K : KissFft F) (inInit outInit : Nat → kiss_fft_cpx F)
    (complex : List F) : Option (Outcome (List (kiss_fft_cpx F))) :=
  match stageLoop complex complex.length 0 ((List.range cfg.window).map inInit) with
  | none => none
  | some inBuf =>
    if K.allocates cfg.window then
      let written := K.transform cfg.window inBuf
      some (Outcome.returned
        ((List.range cfg.window).map (fun k => written.getD k (outInit k))))
    else
      some (Outcome.exited "Insufficient memory for FFT" (-1))

/-- The value of an `int` expression whose exact value is `x`, reduced to the
32-bit two-complement range. -/
def wrapInt32 (x : Int) : Int :=
  (x + 2147483648) % 4294967296 - 2147483648

/-- The vector `magnitude` of `fullFFT`: one `push_back` for every `i` of the
loop `for(int i = 1; i < out.size() / 2; i++)`. -/
def fullFFTMagnitude (cfg : Config) (L : Libm F) (out : List (kiss_fft_cpx F)) : List F :=
  (List.range' 1 (out.length / 2 - 1)).map (fun i =>
    let c : kiss_fft_cpx F := out.getD i ⟨0, 0⟩
    let mag : F := L.sqrt ((c.r / (cfg.window : F)) ^ 2 + (c.i / (cfg.window : F)) ^ 2)
    mag * 2)

/-- The vector `xValues` of `fullFFT`: one `push_back` of the `int` value
`(sampling * k) / window` for every `k` of the loop
`for(int k = 0; k < (window / 2) + 1; k++)`. -/
def fullFFTXValues (cfg : Config) : List F :=
  (List.range (cfg.window / 2 + 1)).map (fun k : Nat =>
    ((Int.tdiv (wrapInt32 ((cfg.sampling : Int) * (k : Int))) (cfg.window : Int) : Int) : F))

/-- The last loop of `fullFFT` from index `q`, with `k` iterations left. The
accesses `magnitude.at(q)` and `xValues.at(q + 1)` throw outside their vector,
which gives `none`; a printed line is recorded as the pair of its two
values. -/
def fullFFTPrintLoop (magnitude xValues : List F) :
    Nat → Nat → List (F × F) → Option (List (F × F))
  | 0, _, printed => some printed
  | k + 1, q, printed =>
    match magnitude[q]? with
    | none => none
    | some m =>
      if m > stepSize then
        match xValues[q + 1]? with
        | none => none
        | some x => fullFFTPrintLoop magnitude xValues k (q + 1) (printed ++ [(x, m)])
      else fullFFTPrintLoop magnitude xValues k (q + 1) printed

/-- The function `fullFFT(out)`: the lines it prints, in order. -/
def fullFFT (cfg : Config) (L : Libm F) (out : List (kiss_fft_cpx F)) :
    Option (List (F × F)) :=
  fullFFTPrintLoop (fullFFTMagnitude cfg L out) (fullFFTXValues cfg)
    (fullFFTMagnitude cfg L out).length 0 []

/-! ## findFFTPeaks -/

/-- The `int` expression `(sampling * i) / window` of `findFFTPeaks`: a 32-bit
product and a truncating division. -/
def binFrequency (cfg : Config) (i : Nat) : Int :=
  Int.tdiv (wrapInt32 ((cfg.sampling : Int) * (i : Int))) (cfg.window : Int)

/-- The assignment `m[k] = v` on a `std::map`: the entries stay sorted by key
and an entry with the same key is overwritten. -/
def mapAssign (k v : F) : List (F × F) → List (F × F)
  | [] => [(k, v)]
  | (k1, v1) :: rest =>
    if k < k1 then (k, v) :: (k1, v1) :: rest
    else if k = k1 then (k, v) :: rest
    else (k1, v1) :: mapAssign k v rest

/-- The body of the loop of `findFFTPeaks` for bin `i`. -/
def findFFTPeaksStep (cfg : Config) (L : Libm F) (out : List (kiss_fft_cpx F))
    (fftPeaks : List (F × F)) (i : Nat) : List (F × F) :=
  let c : kiss_fft_cpx F := out.getD i ⟨0, 0⟩
  let mag : F := L.sqrt ((c.r / (cfg.window : F)) ^ 2 + (c.i / (cfg.window : F)) ^ 2)
  let mag : F := mag * 2
  if mag > stepSize * (cfg.lsbError : F) then
    let freq : F := ((binFrequency cfg i : Int) : F)
    mapAssign freq mag fftPeaks
  else fftPeaks

/-- The function `findFFTPeaks(out)`: the loop `for(int i = 1; i < out.size() / 2; i++)` over
an initially empty map. -/
def findFFTPeaks (cfg : Config) (L : Libm F) (out : List (kiss_fft_cpx F)) :
    List (F × F) :=
  (List.range' 1 (out.length / 2 - 1)).foldl (findFFTPeaksStep cfg L out) []

/-! ## main -/

/-- The `for` loop of `main` over the entries of `harmonics`:
`complex = formComplex(complex, makeWave(harmonid.second, harmonid.first))`. -/
def mainLoop (cfg : Config) (L : Libm F) :
    List (Int × Int) → List F → RandomSource → Option (List F × RandomSource)
  | [], complex, rng => some (complex, rng)
  | harmonid :: rest, complex, rng =>
    match makeWave cfg L harmonid.2 harmonid.1 rng with
    | none => none
    | some (wave, rng) =>
      match formComplex cfg [complex, wave] with
      | none => none
      | some complex => mainLoop cfg L rest complex rng

/-- The first part of `main`: the complex wave it builds. -/
def mainComplex (cfg : Config) (L : Libm F) (rng : RandomSource) :
    Option (List F × RandomSource) :=
  match makeWave cfg L 315 1 rng with
  | none => none
  | some (complex, rng) => mainLoop cfg L cfg.harmonics complex rng

/-- The body of `main` up to the peaks it prints. -/
def mainPeaks (cfg : Config) (L : Libm F) (K : KissFft F)
    (inInit outInit : Nat → kiss_fft_cpx F) (rng : RandomSource) :
    Option (Outcome (List (F × F))) :=
  match mainComplex cfg L rng with
  | none => none
  | some (complex, _) =>
    match fft cfg K inInit outInit complex with
    | none => none
    | some (Outcome.exited printed status) => some (Outcome.exited printed status)
    | some (Outcome.returned out) => some (Outcome.returned (findFFTPeaks cfg L out))

/-! ## Definitions used to state the properties -/

/-- The loop variable `i` of `makeWave` in the iteration that pushes sample `n`. -/
def phaseIndex (samples n : Nat) : Nat :=
  if n ≤ samples then n else (n - 1) % samples + 1

/-- The loop variable of `makeWave` in the next iteration. -/
def nextIndex (samples i : Nat) : Nat :=
  if i = samples then 1 else i + 1

/-- The exact value `mag * sin(position * radians)` for loop variable `i`. -/
def exactValue (cfg : Config) (L : Libm F) (mag position : Int) (i : Nat) : F :=
  (mag : F) * L.sin ((position : F) * radiansAt cfg i)

/-- The `k` samples that `makeWave` pushes from loop variable `i` on. -/
def waveFrom (cfg : Config) (L : Libm F) (mag position : Int) :
    Nat → Nat → RandomSource → List F
  | 0, _, _ => []
  | k + 1, i, rng =>
    (exactValue cfg L mag position i + stepSize * ((rng 0 : Int) : F)) ::
      waveFrom cfg L mag position k (nextIndex cfg.samples i) rng.tail

/-- The arguments `(mag, position)` of the calls of `makeWave` in `main`, in
the order of the calls. -/
def mainCalls (cfg : Config) : List (Int × Int) :=
  (315, 1) :: cfg.harmonics.map (fun harmonid => (harmonid.2, harmonid.1))

/-- The sequences returned by a list of `makeWave` calls made one after the
other on the same random source. -/
def makeWaves (cfg : Config) (L : Libm F) :
    List (Int × Int) → RandomSource → Option (List (List F))
  | [], _ => some []
  | call :: rest, rng =>
    match makeWave cfg L call.1 call.2 rng with
    | none => none
    | some (wave, rng) =>
      match makeWaves cfg L rest rng with
      | none => none
      | some waves => some (wave :: waves)

/-- The random source that always draws `0`. -/
def zeroSource : RandomSource := fun _ => 0

/-- The harmonic orders the program synthesises: the fundamental and the keys
of the harmonics map. -/
def synthesizedOrders (cfg : Config) : List Int :=
  1 :: cfg.harmonics.map (fun harmonid => harmonid.1)

/-- The magnitude `findFFTPeaks` computes for bin `i` of `out`. -/
def binMagnitude (cfg : Config) (L : Libm F) (out : List (kiss_fft_cpx F)) (i : Nat) : F :=
  2 * L.sqrt (((out.getD i ⟨0, 0⟩).r / (cfg.window : F)) ^ 2
    + ((out.getD i ⟨0, 0⟩).i / (cfg.window : F)) ^ 2)

end Values

/-- A stand-in for the math library over the rationals, used to run the
definitions on concrete inputs. -/
def ratLibm : Libm ℚ where
  sin := fun _ => 0
  sqrt := fun x => x

/-! ## Rounding -/

section Rounding

variable {F : Type} [LinearOrderedField F] [FloorRing F]

theorem cRound_sub_le (x : F) : ((cRound x : Int) : F) - x ≤ 1 / 2 := by
  unfold cRound
  split
  · have h := Int.floor_le (x + 1 / 2)
    linarith
  · have h := Int.ceil_lt_add_one (x - 1 / 2)
    linarith

theorem cRound_sub_ge (x : F) : -(1 / 2) ≤ ((cRound x : Int) : F) - x := by
  unfold cRound
  split
  · have h := Int.lt_floor_add_one (x + 1 / 2)
    linarith
  · have h := Int.le_ceil (x - 1 / 2)
    linarith

theorem cRound_abs_le (x : F) : |((cRound x : Int) : F) - x| ≤ 1 / 2 :=
  abs_le.mpr ⟨cRound_sub_ge x, cRound_sub_le x⟩

/-- No integer is closer to `x` than `cRound x`. -/
theorem cRound_nearest (x : F) (k : Int) :
    |((cRound x : Int) : F) - x| ≤ |(k : F) - x| := by
  by_cases hk : k = cRound x
  · rw [hk]
  · have h1 : (1 : F) ≤ |(k : F) - ((cRound x : Int) : F)| := by
      have hne : k - cRound x ≠ 0 := sub_ne_zero.mpr hk
      have hone : (1 : Int) ≤ |k - cRound x| := Int.one_le_abs hne
      have hcast : ((1 : Int) : F) ≤ ((|k - cRound x| : Int) : F) := Int.cast_le.mpr hone
      rw [Int.cast_abs, Int.cast_sub] at hcast
      simpa using hcast
    have h2 := cRound_abs_le x
    have h3 : |(k : F) - ((cRound x : Int) : F)|
        ≤ |(k : F) - x| + |((cRound x : Int) : F) - x| := by
      have := abs_sub_le (k : F) x ((cRound x : Int) : F)
      rw [abs_sub_comm x _] at this
      exact this
    linarith

theorem cRound_zero : cRound (0 : F) = 0 := by
  unfold cRound
  simp
  norm_num

end Rounding

/-! ## Theorems about roundUp -/

section RoundUp

variable {F : Type} [LinearOrderedField F] [FloorRing F]

/-- C10. `roundUp v 0` is `v`; for a step `s > 0`, `roundUp v s` is
`round(v / s) * s`, an integer multiple of `s` within `s / 2` of `v`, and no
integer multiple of `s` is closer to `v`. -/
theorem roundUp_nearest_multiple (v s : F) (hs : 0 < s) :
    roundUp v 0 = v ∧
    roundUp v s = ((cRound (v / s) : Int) : F) * s ∧
    (∃ m : Int, roundUp v s = (m : F) * s) ∧
    |roundUp v s - v| ≤ s / 2 ∧
    ∀ k : Int, |roundUp v s - v| ≤ |(k : F) * s - v| := by
  have hne : s ≠ 0 := ne_of_gt hs
  have hdef : roundUp v s = ((cRound (v / s) : Int) : F) * s := by
    unfold roundUp
    rw [if_neg hne]
  have hdist : ∀ k : Int, |(k : F) * s - v| = |(k : F) - v / s| * s := by
    intro k
    have : (k : F) * s - v = ((k : F) - v / s) * s := by
      field_simp
    rw [this, abs_mul, abs_of_pos hs]
  refine ⟨by unfold roundUp; simp, hdef, ⟨_, hdef⟩, ?_, ?_⟩
  · rw [hdef, hdist]
    have h := cRound_abs_le (v / s)
    have := mul_le_mul_of_nonneg_right h (le_of_lt hs)
    linarith
  · intro k
    rw [hdef, hdist, hdist]
    exact mul_le_mul_of_nonneg_right (cRound_nearest (v / s) k) (le_of_lt hs)

/-- An instance of C10 over the rationals: `v = 1`, `s = 1 / 2`. -/
theorem roundUp_nearest_multiple_witness :
    (0 : ℚ) < 1 / 2 ∧
    (roundUp (1 : ℚ) 0 = 1 ∧
    roundUp (1 : ℚ) (1 / 2) = ((cRound ((1 : ℚ) / (1 / 2)) : Int) : ℚ) * (1 / 2) ∧
    (∃ m : Int, roundUp (1 : ℚ) (1 / 2) = (m : ℚ) * (1 / 2)) ∧
    |roundUp (1 : ℚ) (1 / 2) - 1| ≤ (1 / 2) / 2 ∧
    ∀ k : Int, |roundUp (1 : ℚ) (1 / 2) - 1| ≤ |(k : ℚ) * (1 / 2) - 1|) :=
  ⟨by norm_num, roundUp_nearest_multiple 1 (1 / 2) (by norm_num)⟩

end RoundUp

/-! ## Theorems about makeWave -/

section MakeWave

variable {F : Type} [LinearOrderedField F] [FloorRing F]

theorem nextIndex_le (samples i : Nat) (hs : 1 ≤ samples) (hi : i ≤ samples) :
    nextIndex samples i ≤ samples := by
  unfold nextIndex
  split <;> omega

theorem drop_tail (rng : RandomSource) (k : Nat) :
    rng.tail.drop k = rng.drop (k + 1) := by
  funext n
  simp only [RandomSource.drop, RandomSource.tail]
  rfl

theorem drop_one (rng : RandomSource) : rng.drop 1 = rng.tail := rfl

/-- With `k + 1` samples missing and at least as much fuel, the loop pushes
exactly the `k + 1` samples of `waveFrom` and returns. -/
theorem makeWaveLoop_fuel (cfg : Config) (L : Libm F) (mag position : Int)
    (hs : 1 ≤ cfg.samples) :
    ∀ (k fuel i windowCount : Nat) (wave : List F) (rng : RandomSource),
      windowCount + (k + 1) = cfg.window → i ≤ cfg.samples → k + 1 ≤ fuel →
      makeWaveLoop cfg L mag position fuel i windowCount wave rng
        = some (wave ++ waveFrom cfg L mag position (k + 1) i rng, rng.drop (k + 1)) := by
  intro k
  induction k with
  | zero =>
    intro fuel i wc wave rng hwc hi hfuel
    obtain ⟨f, rfl⟩ : ∃ f, fuel = f + 1 := ⟨fuel - 1, by omega⟩
    have hw : wc + 1 = cfg.window := by omega
    simp only [makeWaveLoop, if_pos hi, if_pos hw, waveFrom, exactValue]
    rfl
  | succ k ih =>
    intro fuel i wc wave rng hwc hi hfuel
    obtain ⟨f, rfl⟩ : ∃ f, fuel = f + 1 := ⟨fuel - 1, by omega⟩
    have hw : ¬ wc + 1 = cfg.window := by omega
    have hlt : wc + 1 < cfg.window := by omega
    have hnext : (if i = cfg.samples ∧ wc + 1 < cfg.window then 0 else i) + 1
        = nextIndex cfg.samples i := by
      unfold nextIndex
      by_cases h : i = cfg.samples
      · simp [h, hlt]
      · simp [h]
    simp only [makeWaveLoop, if_pos hi, if_neg hw, hnext]
    rw [ih f (nextIndex cfg.samples i) (wc + 1) _ rng.tail (by omega)
      (nextIndex_le _ _ hs hi) (by omega)]
    rw [drop_tail, List.append_assoc]
    rfl

/-- For `samples >= 1` and `window >= 1`, `makeWave` returns the `window`
samples of `waveFrom` and has drawn `window` integers. -/
theorem makeWave_eq (cfg : Config) (L : Libm F) (mag position : Int) (rng : RandomSource)
    (hs : 1 ≤ cfg.samples) (hw : 1 ≤ cfg.window) :
    makeWave cfg L mag position rng
      = some (waveFrom cfg L mag position cfg.window 0 rng, rng.drop cfg.window) := by
  obtain ⟨k, hk⟩ : ∃ k, cfg.window = k + 1 := ⟨cfg.window - 1, by omega⟩
  unfold makeWave
  rw [makeWaveLoop_fuel cfg L mag position hs k _ 0 0 [] rng (by omega) (by omega) (by omega)]
  simp [hk]

theorem waveFrom_length (cfg : Config) (L : Libm F) (mag position : Int) :
    ∀ (k i : Nat) (rng : RandomSource), (waveFrom cfg L mag position k i rng).length = k := by
  intro k
  induction k with
  | zero => intro i rng; rfl
  | succ k ih => intro i rng; simp [waveFrom, ih]

theorem waveFrom_getElem? (cfg : Config) (L : Libm F) (mag position : Int) :
    ∀ (n k i : Nat) (rng : RandomSource), n < k →
      (waveFrom cfg L mag position k i rng)[n]?
        = some (exactValue cfg L mag position ((nextIndex cfg.samples)^[n] i)
            + stepSize * ((rng n : Int) : F)) := by
  intro n
  induction n with
  | zero =>
    intro k i rng hk
    obtain ⟨k, rfl⟩ : ∃ j, k = j + 1 := ⟨k - 1, by omega⟩
    simp [waveFrom]
  | succ n ih =>
    intro k i rng hk
    obtain ⟨k, rfl⟩ : ∃ j, k = j + 1 := ⟨k - 1, by omega⟩
    simp only [waveFrom, List.getElem?_cons_succ, Function.iterate_succ, Function.comp_apply]
    rw [ih k _ rng.tail (by omega)]
    rfl

theorem phaseIndex_succ (samples n : Nat) (hs : 1 ≤ samples) :
    phaseIndex samples (n + 1) = nextIndex samples (phaseIndex samples n) := by
  unfold phaseIndex nextIndex
  by_cases h1 : n + 1 ≤ samples
  · have h2 : n ≤ samples := by omega
    have h3 : n ≠ samples := by omega
    simp [h1, h2, h3]
  · by_cases h2 : n ≤ samples
    · have h3 : n = samples := by omega
      simp [h3]
    · have hn : n = (n - 1) + 1 := by omega
      have hmod : (n - 1) % samples < samples := Nat.mod_lt _ (by omega)
      simp only [if_neg h1, if_neg h2, Nat.add_sub_cancel]
      by_cases h3 : (n - 1) % samples + 1 = samples
      · rw [if_pos h3]
        have : n % samples = 0 := by
          rw [hn, Nat.add_mod]
          have h1s : 1 % samples = 1 ∨ samples = 1 := by
            rcases Nat.lt_or_ge 1 samples with h | h
            · left; exact Nat.mod_eq_of_lt h
            · right; omega
          rcases h1s with h | h
          · rw [h, h3, Nat.mod_self]
          · subst h; simp [Nat.mod_one]
        rw [this]
      · rw [if_neg h3]
        have : n % samples = (n - 1) % samples + 1 := by
          have hlt : (n - 1) % samples + 1 < samples := by omega
          have h1s : 1 % samples = 1 := Nat.mod_eq_of_lt (by omega)
          rw [hn, Nat.add_mod, h1s, Nat.mod_eq_of_lt (by simpa using hlt)]
          simp
        rw [this]

theorem iterate_nextIndex (samples : Nat) (hs : 1 ≤ samples) :
    ∀ n : Nat, (nextIndex samples)^[n] 0 = phaseIndex samples n := by
  intro n
  induction n with
  | zero => simp [phaseIndex]
  | succ n ih =>
    rw [Function.iterate_succ_apply', ih, phaseIndex_succ samples n hs]

theorem phaseIndex_le (samples n : Nat) (hs : 1 ≤ samples) :
    phaseIndex samples n ≤ samples := by
  unfold phaseIndex
  split
  · assumption
  · have := Nat.mod_lt (n - 1) (show 0 < samples by omega)
    omega

/-- C2. For `samples >= 1` and `window >= 1`, `makeWave` returns, and returns
exactly `window` samples, for every magnitude, position and random source; the
loop leaves through its `break` after `window` iterations, so any fuel of at
least `window` gives the same result. -/
theorem makeWave_length (cfg : Config) (L : Libm F) (mag position : Int)
    (rng : RandomSource) (hs : 1 ≤ cfg.samples) (hw : 1 ≤ cfg.window) :
    ∃ (wave : List F) (rest : RandomSource),
      makeWave cfg L mag position rng = some (wave, rest) ∧
      wave.length = cfg.window ∧
      ∀ fuel, cfg.window ≤ fuel →
        makeWaveLoop cfg L mag position fuel 0 0 [] rng = some (wave, rest) := by
  refine ⟨_, _, makeWave_eq cfg L mag position rng hs hw, waveFrom_length _ _ _ _ _ _ _, ?_⟩
  intro fuel hfuel
  obtain ⟨k, hk⟩ : ∃ k, cfg.window = k + 1 := ⟨cfg.window - 1, by omega⟩
  rw [makeWaveLoop_fuel cfg L mag position hs k fuel 0 0 [] rng (by omega) (by omega)
    (by omega)]
  simp [hk]

/-- An instance of C2: for the constants of the source `makeWave(315, 1)`
returns 800 samples. -/
theorem makeWave_length_witness :
    (1 ≤ adcConfig.samples ∧ 1 ≤ adcConfig.window) ∧
    ∃ (wave : List ℚ) (rest : RandomSource),
      makeWave adcConfig ratLibm 315 1 zeroSource = some (wave, rest) ∧
      wave.length = adcConfig.window ∧
      ∀ fuel, adcConfig.window ≤ fuel →
        makeWaveLoop adcConfig ratLibm 315 1 fuel 0 0 [] zeroSource = some (wave, rest) :=
  ⟨⟨by decide, by decide⟩,
    makeWave_length adcConfig ratLibm 315 1 zeroSource (by decide) (by decide)⟩

end MakeWave

/-! ## Theorems about formComplex -/

section FormComplex

variable {F : Type} [LinearOrderedField F] [FloorRing F]

theorem foldPlus_eq_sum : ∀ vals : List F, foldPlus vals = vals.sum
  | [] => rfl
  | [x] => by simp [foldPlus]
  | x :: y :: rest => by
    simp [foldPlus, foldPlus_eq_sum (y :: rest)]

theorem readAll_eq_some (i : Nat) :
    ∀ waves : List (List F), (∀ w ∈ waves, i < w.length) →
      readAll i waves = some (waves.map (fun w => w.getD i 0))
  | [], _ => rfl
  | w :: ws, h => by
    have hw : i < w.length := h w (List.mem_cons_self _ _)
    have hws : ∀ v ∈ ws, i < v.length := fun v hv => h v (List.mem_cons_of_mem _ hv)
    have hget : w[i]? = some (w.getD i 0) := by
      rw [List.getD_eq_getElem?_getD, List.getElem?_eq_getElem hw]
      rfl
    simp only [readAll, hget, readAll_eq_some i ws hws, List.map_cons]

theorem readAll_eq_none (i : Nat) :
    ∀ waves : List (List F), (∃ w ∈ waves, w.length ≤ i) → readAll i waves = none
  | [], h => by
    obtain ⟨w, hw, _⟩ := h
    cases hw
  | w :: ws, h => by
    obtain ⟨v, hv, hlen⟩ := h
    rcases List.mem_cons.mp hv with rfl | hmem
    · have hget : v[i]? = none := List.getElem?_eq_none hlen
      simp only [readAll, hget]
    · have ih := readAll_eq_none i ws ⟨v, hmem, hlen⟩
      simp only [readAll, ih]
      cases w[i]? <;> rfl

/-- The value `formComplex` pushes for index `i`. -/
theorem formComplexLoop_eq (waves : List (List F)) :
    ∀ (k i : Nat) (out : List F), (∀ w ∈ waves, i + k ≤ w.length) →
      formComplexLoop waves k i out
        = some (out ++ (List.range' i k).map (fun j =>
            ((cRound ((waves.map (fun w => w.getD j 0)).sum * 10000) : Int) : F) / 10000)) := by
  intro k
  induction k with
  | zero => intro i out _; simp [formComplexLoop]
  | succ k ih =>
    intro i out h
    have hread := readAll_eq_some i waves (fun w hw => by have := h w hw; omega)
    simp only [formComplexLoop, hread, foldPlus_eq_sum]
    rw [ih (i + 1) _ (fun w hw => by have := h w hw; omega)]
    simp [List.range'_succ]

theorem formComplexLoop_eq_none (waves : List (List F)) :
    ∀ (k i : Nat) (out : List F), 1 ≤ k → (∃ w ∈ waves, w.length < i + k) →
      formComplexLoop waves k i out = none := by
  intro k
  induction k with
  | zero =>
    intro i out hk _
    omega
  | succ k ih =>
    intro i out _ h
    obtain ⟨w, hw, hlen⟩ := h
    simp only [formComplexLoop]
    cases hread : readAll i waves with
    | none => rfl
    | some vals =>
      simp only []
      by_cases hi : w.length ≤ i
      · rw [readAll_eq_none i waves ⟨w, hw, hi⟩] at hread
        cases hread
      · exact ih (i + 1) _ (by omega) ⟨w, hw, by omega⟩

theorem formComplex_eq (cfg : Config) (waves : List (List F)) (hne : waves ≠ [])
    (hlen : ∀ w ∈ waves, cfg.window + 1 ≤ w.length) :
    formComplex cfg waves
      = some ((List.range (cfg.window + 1)).map (fun j =>
          ((cRound ((waves.map (fun w => w.getD j 0)).sum * 10000) : Int) : F) / 10000)) := by
  unfold formComplex
  rw [if_neg hne, formComplexLoop_eq waves (cfg.window + 1) 0 []
    (fun w hw => by have := hlen w hw; omega)]
  simp [List.range_eq_range']

theorem formComplex_eq_none (cfg : Config) (waves : List (List F))
    (h : ∃ w ∈ waves, w.length ≤ cfg.window) : formComplex cfg waves = none := by
  unfold formComplex
  split
  · rfl
  · obtain ⟨w, hw, hlen⟩ := h
    exact formComplexLoop_eq_none waves (cfg.window + 1) 0 [] (by omega) ⟨w, hw, by omega⟩

theorem formComplexLoop_length (waves : List (List F)) :
    ∀ (k i : Nat) (out res : List F), formComplexLoop waves k i out = some res →
      res.length = out.length + k := by
  intro k
  induction k with
  | zero =>
    intro i out res h
    simp only [formComplexLoop, Option.some.injEq] at h
    simp [← h]
  | succ k ih =>
    intro i out res h
    simp only [formComplexLoop] at h
    cases hread : readAll i waves with
    | none => rw [hread] at h; cases h
    | some vals =>
      rw [hread] at h
      have := ih (i + 1) _ res h
      simp only [List.length_append, List.length_singleton] at this
      omega

theorem formComplex_length (cfg : Config) (waves : List (List F)) (out : List F)
    (h : formComplex cfg waves = some out) : out.length = cfg.window + 1 := by
  unfold formComplex at h
  split at h
  · cases h
  · have := formComplexLoop_length waves (cfg.window + 1) 0 [] out h
    simpa using this

theorem stageLoop_eq_none (complex : List F) :
    ∀ (k i : Nat) (buf : List (kiss_fft_cpx F)), 1 ≤ k → buf.length < i + k →
      stageLoop complex k i buf = none := by
  intro k
  induction k with
  | zero => intro i buf hk _; omega
  | succ k ih =>
    intro i buf _ hlen
    simp only [stageLoop, writeAt]
    by_cases hi : i < buf.length
    · rw [if_pos hi]
      simp only []
      exact ih (i + 1) _ (by omega) (by rw [List.length_set]; omega)
    · rw [if_neg hi]

theorem fft_eq_none (cfg : Config) (K : KissFft F) (inInit outInit : Nat → kiss_fft_cpx F)
    (complex : List F) (h : cfg.window < complex.length) :
    fft cfg K inInit outInit complex = none := by
  unfold fft
  rw [stageLoop_eq_none complex complex.length 0 _ (by omega) (by simp; omega)]

theorem makeWave_too_short (cfg : Config) (L : Libm F) (mag position : Int)
    (rng : RandomSource) (hs : 1 ≤ cfg.samples) (hw : 1 ≤ cfg.window) :
    ∃ (wave : List F) (rest : RandomSource),
      makeWave cfg L mag position rng = some (wave, rest) ∧
      wave.length = cfg.window ∧
      wave[cfg.window]? = none ∧
      ∀ other : List F, formComplex cfg [wave, other] = none := by
  have hlen := waveFrom_length cfg L mag position cfg.window 0 rng
  exact ⟨_, _, makeWave_eq cfg L mag position rng hs hw, hlen,
    List.getElem?_eq_none (le_of_eq hlen),
    fun other => formComplex_eq_none cfg _ ⟨_, List.mem_cons_self _ _, le_of_eq hlen⟩⟩

theorem mainLoop_eq_none (cfg : Config) (L : Libm F) (hs : 1 ≤ cfg.samples)
    (hw : 1 ≤ cfg.window) (harmonid : Int × Int) (rest : List (Int × Int))
    (complex : List F) (rng : RandomSource) (hc : complex.length ≤ cfg.window) :
    mainLoop cfg L (harmonid :: rest) complex rng = none := by
  simp only [mainLoop]
  rw [makeWave_eq cfg L harmonid.2 harmonid.1 rng hs hw]
  simp only []
  rw [formComplex_eq_none cfg _ ⟨complex, List.mem_cons_self _ _, hc⟩]

theorem mainComplex_eq_none (cfg : Config) (L : Libm F) (rng : RandomSource)
    (hs : 1 ≤ cfg.samples) (hw : 1 ≤ cfg.window) (harmonid : Int × Int)
    (rest : List (Int × Int)) (hh : cfg.harmonics = harmonid :: rest) :
    mainComplex cfg L rng = none := by
  unfold mainComplex
  rw [makeWave_eq cfg L 315 1 rng hs hw, hh]
  simp only []
  exact mainLoop_eq_none cfg L hs hw harmonid rest _ _
    (le_of_eq (waveFrom_length cfg L 315 1 cfg.window 0 rng))

/-- C3, as the code behaves. The first sequence `main` passes to `formComplex`
is the result of `makeWave(315, 1)`: it has `window` entries, not
`window + 1`, so the read `wave[window]` of `formComplex` is outside it and
`main` does not get a complex wave. -/
theorem main_formComplex_reads_past_makeWave (L : Libm F) (rng : RandomSource) :
    (∃ (wave : List F) (rest : RandomSource),
      makeWave adcConfig L 315 1 rng = some (wave, rest) ∧
      wave.length = adcConfig.window ∧
      wave[adcConfig.window]? = none ∧
      ∀ other : List F, formComplex adcConfig [wave, other] = none) ∧
    mainComplex adcConfig L rng = none :=
  ⟨makeWave_too_short adcConfig L 315 1 rng (by decide) (by decide),
    mainComplex_eq_none adcConfig L rng (by decide) (by decide) _ _ rfl⟩

theorem writeAt_eq_none {α : Type} (buf : List α) (i : Nat) (v : α)
    (h : buf.length ≤ i) : writeAt buf i v = none := by
  unfold writeAt
  rw [if_neg (by omega)]

theorem formComplex_overrun (cfg : Config) (K : KissFft F)
    (inInit outInit : Nat → kiss_fft_cpx F) (waves : List (List F)) (out : List F)
    (h : formComplex cfg waves = some out) :
    out.length = cfg.window + 1 ∧ out.length ≠ cfg.window ∧
    writeAt ((List.range cfg.window).map inInit) cfg.window
      (⟨out.getD cfg.window 0, 0⟩ : kiss_fft_cpx F) = none ∧
    fft cfg K inInit outInit out = none := by
  have hl := formComplex_length cfg waves out h
  refine ⟨hl, by omega, ?_, fft_eq_none cfg K inInit outInit out (by omega)⟩
  apply writeAt_eq_none
  rw [List.length_map, List.length_range]

theorem formComplex_replicate (cfg : Config) (n : Nat) (hn : cfg.window + 1 ≤ n) :
    ∃ out : List F,
      formComplex cfg [List.replicate n (0 : F), List.replicate n (0 : F)] = some out := by
  refine ⟨_, formComplex_eq cfg _ (List.cons_ne_nil _ _) ?_⟩
  intro w hw
  have hw2 : w = List.replicate n (0 : F) := by
    rcases List.mem_cons.mp hw with h | h
    · exact h
    · rcases List.mem_cons.mp h with h | h
      · exact h
      · cases h
  rw [hw2, List.length_replicate]
  exact hn

/-- C5, as the code behaves. `formComplex` returns `window + 1` entries whenever
it returns (here for two sequences of 801 zeros: 801 entries, not 800), and
the staging loop of `fft` then writes `in[window]`, outside the buffer
`in[window]`. -/
theorem formComplex_output_overruns_fft_input (K : KissFft F)
    (inInit outInit : Nat → kiss_fft_cpx F) :
    (∃ out : List F,
      formComplex adcConfig [List.replicate 801 (0 : F), List.replicate 801 (0 : F)]
        = some out ∧
      out.length = adcConfig.window + 1 ∧ out.length ≠ adcConfig.window ∧
      writeAt ((List.range adcConfig.window).map inInit) adcConfig.window
        (⟨out.getD adcConfig.window 0, 0⟩ : kiss_fft_cpx F) = none ∧
      fft adcConfig K inInit outInit out = none) ∧
    (∀ (cfg : Config) (waves : List (List F)),
      formComplex cfg waves = none ∨
      ∃ out : List F, formComplex cfg waves = some out ∧ out.length = cfg.window + 1 ∧
        fft cfg K inInit outInit out = none) := by
  constructor
  · obtain ⟨out, hout⟩ := formComplex_replicate (F := F) adcConfig 801 (by decide)
    exact ⟨out, hout, formComplex_overrun adcConfig K inInit outInit _ out hout⟩
  · intro cfg waves
    cases h : formComplex cfg waves with
    | none => left; rfl
    | some out =>
      right
      have hl := formComplex_overrun cfg K inInit outInit waves out h
      exact ⟨out, rfl, hl.1, hl.2.2.2⟩

end FormComplex

/-! ## Theorems about findFFTPeaks -/

section FindFFTPeaks

variable {F : Type} [LinearOrderedField F] [FloorRing F]

theorem mem_mapAssign (k v : F) (p : F × F) :
    ∀ l : List (F × F), p ∈ mapAssign k v l → p = (k, v) ∨ p ∈ l
  | [], h => by
    simp only [mapAssign, List.mem_singleton] at h
    exact Or.inl h
  | (k1, v1) :: rest, h => by
    simp only [mapAssign] at h
    split at h
    · rcases List.mem_cons.mp h with h1 | h1
      · exact Or.inl h1
      · exact Or.inr h1
    · split at h
      · rcases List.mem_cons.mp h with h1 | h1
        · exact Or.inl h1
        · exact Or.inr (List.mem_cons_of_mem _ h1)
      · rcases List.mem_cons.mp h with h1 | h1
        · exact Or.inr (h1 ▸ List.mem_cons_self _ _)
        · rcases mem_mapAssign k v p rest h1 with h2 | h2
          · exact Or.inl h2
          · exact Or.inr (List.mem_cons_of_mem _ h2)

/-- A key above every key of the map is appended at the end. -/
theorem mapAssign_append (k v : F) :
    ∀ l : List (F × F), (∀ p ∈ l, p.1 < k) → mapAssign k v l = l ++ [(k, v)]
  | [], _ => rfl
  | (k1, v1) :: rest, h => by
    have h1 : k1 < k := h (k1, v1) (List.mem_cons_self _ _)
    have hrest : ∀ p ∈ rest, p.1 < k := fun p hp => h p (List.mem_cons_of_mem _ hp)
    simp only [mapAssign]
    rw [if_neg (not_lt_of_gt h1), if_neg (ne_of_gt h1), mapAssign_append k v rest hrest]
    rfl

/-- One iteration of the loop, written with `binMagnitude`. -/
theorem findFFTPeaksStep_eq (cfg : Config) (L : Libm F) (out : List (kiss_fft_cpx F))
    (fftPeaks : List (F × F)) (i : Nat) :
    findFFTPeaksStep cfg L out fftPeaks i
      = if stepSize * (cfg.lsbError : F) < binMagnitude cfg L out i then
          mapAssign ((binFrequency cfg i : Int) : F) (binMagnitude cfg L out i) fftPeaks
        else fftPeaks := by
  simp only [findFFTPeaksStep, binMagnitude, gt_iff_lt, mul_comm (L.sqrt _) 2]

/-- The loop only assigns for the bins above the threshold. -/
theorem foldl_findFFTPeaksStep (cfg : Config) (L : Libm F) (out : List (kiss_fft_cpx F)) :
    ∀ (bins : List Nat) (acc : List (F × F)),
      bins.foldl (findFFTPeaksStep cfg L out) acc
        = (bins.filter
            (fun i => decide (stepSize * (cfg.lsbError : F) < binMagnitude cfg L out i))).foldl
            (fun fftPeaks i => mapAssign ((binFrequency cfg i : Int) : F)
              (binMagnitude cfg L out i) fftPeaks) acc
  | [], _ => rfl
  | i :: rest, acc => by
    rw [List.foldl_cons, findFFTPeaksStep_eq, List.filter_cons]
    by_cases h : stepSize * (cfg.lsbError : F) < binMagnitude cfg L out i
    · rw [if_pos h, if_pos (by simpa using h), List.foldl_cons]
      exact foldl_findFFTPeaksStep cfg L out rest _
    · rw [if_neg h, if_neg (by simpa using h)]
      exact foldl_findFFTPeaksStep cfg L out rest _

/-- Every entry of the map after the loop was in it before or comes from one
of the bins. -/
theorem mem_foldl_mapAssign (key val : Nat → F) (p : F × F) :
    ∀ (bins : List Nat) (acc : List (F × F)),
      p ∈ bins.foldl (fun fftPeaks i => mapAssign (key i) (val i) fftPeaks) acc →
      p ∈ acc ∨ ∃ i ∈ bins, p = (key i, val i)
  | [], acc, h => Or.inl h
  | i :: rest, acc, h => by
    rw [List.foldl_cons] at h
    rcases mem_foldl_mapAssign key val p rest _ h with h1 | ⟨j, hj, hp⟩
    · rcases mem_mapAssign _ _ p acc h1 with h2 | h2
      · exact Or.inr ⟨i, List.mem_cons_self _ _, h2⟩
      · exact Or.inl h2
    · exact Or.inr ⟨j, List.mem_cons_of_mem _ hj, hp⟩

/-- Bins visited in increasing order of their keys are appended one by one. -/
theorem foldl_mapAssign_increasing (key val : Nat → F) :
    ∀ (bins : List Nat) (acc : List (F × F)),
      bins.Pairwise (fun i j => key i < key j) →
      (∀ p ∈ acc, ∀ i ∈ bins, p.1 < key i) →
      bins.foldl (fun fftPeaks i => mapAssign (key i) (val i) fftPeaks) acc
        = acc ++ bins.map (fun i => (key i, val i))
  | [], acc, _, _ => by simp
  | i :: rest, acc, hp, hacc => by
    rw [List.pairwise_cons] at hp
    rw [List.foldl_cons, mapAssign_append (key i) (val i) acc
      (fun p hp2 => hacc p hp2 i (List.mem_cons_self _ _))]
    rw [foldl_mapAssign_increasing key val rest _ hp.2]
    · simp
    · intro p hp2 j hj
      rcases List.mem_append.mp hp2 with h | h
      · exact hacc p h j (List.mem_cons_of_mem _ hj)
      · rw [List.mem_singleton] at h
        rw [h]
        exact hp.1 j hj

theorem wrapInt32_eq (x : Int) (h0 : 0 ≤ x) (h1 : x < 2147483648) : wrapInt32 x = x := by
  unfold wrapInt32
  omega

theorem binFrequency_adc (i : Nat) (hi : i < 400) :
    wrapInt32 ((adcConfig.sampling : Int) * (i : Int)) = 4000 * (i : Int) ∧
    binFrequency adcConfig i = 5 * (i : Int) := by
  have hw : wrapInt32 (4000 * (i : Int)) = 4000 * (i : Int) :=
    wrapInt32_eq _ (by omega) (by omega)
  refine ⟨hw, ?_⟩
  show Int.tdiv (wrapInt32 (4000 * (i : Int))) 800 = 5 * (i : Int)
  rw [hw, Int.tdiv_eq_ediv (by omega) (by omega)]
  omega

theorem mem_scanned_bins (n i : Nat) (h : i ∈ List.range' 1 (n - 1)) : 1 ≤ i ∧ i < n := by
  rw [List.mem_range'_1] at h
  omega

theorem binMagnitude_eq (cfg : Config) (L : Libm F) (out : List (kiss_fft_cpx F)) (i : Nat)
    (hi : i < out.length) :
    ∃ c : kiss_fft_cpx F, out[i]? = some c ∧
      binMagnitude cfg L out i
        = 2 * L.sqrt ((c.r / (cfg.window : F)) ^ 2 + (c.i / (cfg.window : F)) ^ 2) := by
  refine ⟨out[i], List.getElem?_eq_getElem hi, ?_⟩
  unfold binMagnitude
  rw [List.getD_eq_getElem out _ hi]

theorem findFFTPeaks_eq_filter (cfg : Config) (L : Libm F) (out : List (kiss_fft_cpx F)) :
    findFFTPeaks cfg L out
      = ((List.range' 1 (out.length / 2 - 1)).filter
          (fun i => decide (stepSize * (cfg.lsbError : F) < binMagnitude cfg L out i))).foldl
          (fun fftPeaks i => mapAssign ((binFrequency cfg i : Int) : F)
            (binMagnitude cfg L out i) fftPeaks) [] := by
  unfold findFFTPeaks
  exact foldl_findFFTPeaksStep cfg L out _ []

theorem findFFTPeaks_eq_nil (cfg : Config) (L : Libm F) (out : List (kiss_fft_cpx F))
    (h : ∀ i, 1 ≤ i → i < out.length / 2 →
      binMagnitude cfg L out i ≤ stepSize * (cfg.lsbError : F)) :
    findFFTPeaks cfg L out = [] := by
  rw [findFFTPeaks_eq_filter]
  have hnil : (List.range' 1 (out.length / 2 - 1)).filter
      (fun i => decide (stepSize * (cfg.lsbError : F) < binMagnitude cfg L out i)) = [] := by
    rw [List.filter_eq_nil_iff]
    intro i hi
    have hb := mem_scanned_bins _ _ hi
    have := h i hb.1 hb.2
    simpa using this
  rw [hnil]
  rfl

theorem binMagnitude_zero (cfg : Config) (L : Libm F) (out : List (kiss_fft_cpx F))
    (hsqrt : L.sqrt 0 = 0) (hz : ∀ c ∈ out, c.r = 0 ∧ c.i = 0) (i : Nat) :
    binMagnitude cfg L out i = 0 := by
  have hc : (out.getD i ⟨0, 0⟩).r = 0 ∧ (out.getD i ⟨0, 0⟩).i = 0 := by
    rw [List.getD_eq_getElem?_getD]
    cases h : out[i]? with
    | none => exact ⟨rfl, rfl⟩
    | some c => exact hz c (List.getElem?_mem h)
  unfold binMagnitude
  rw [hc.1, hc.2]
  simp [hsqrt]

/-- C6. Every entry `(f, m)` of `findFFTPeaks(out)` comes from a bin `i` with
`1 <= i < out.size() / 2`, with `f` the value of `(sampling * i) / window`,
`m = 2 * sqrt((out[i].r / window)^2 + (out[i].i / window)^2)` and
`m > stepSize * lsbError`. The map is built from the bins above the threshold
alone, so a bin at or below it contributes nothing; when no scanned bin is
above the threshold, in particular for an all-zero sequence, the map is
empty. The key is `(sampling * i) / window` in plain arithmetic as long as
the product fits an `int`. -/
theorem findFFTPeaks_entries (cfg : Config) (L : Libm F) (out : List (kiss_fft_cpx F)) :
    (∀ f m : F, (f, m) ∈ findFFTPeaks cfg L out →
      ∃ (i : Nat) (c : kiss_fft_cpx F), 1 ≤ i ∧ i < out.length / 2 ∧ out[i]? = some c ∧
        f = ((binFrequency cfg i : Int) : F) ∧
        m = 2 * L.sqrt ((c.r / (cfg.window : F)) ^ 2 + (c.i / (cfg.window : F)) ^ 2) ∧
        stepSize * (cfg.lsbError : F) < m) ∧
    findFFTPeaks cfg L out
      = ((List.range' 1 (out.length / 2 - 1)).filter
          (fun i => decide (stepSize * (cfg.lsbError : F) < binMagnitude cfg L out i))).foldl
          (fun fftPeaks i => mapAssign ((binFrequency cfg i : Int) : F)
            (binMagnitude cfg L out i) fftPeaks) [] ∧
    ((∀ i, 1 ≤ i → i < out.length / 2 →
        binMagnitude cfg L out i ≤ stepSize * (cfg.lsbError : F)) →
      findFFTPeaks cfg L out = []) ∧
    (L.sqrt 0 = 0 → (∀ c ∈ out, c.r = 0 ∧ c.i = 0) → findFFTPeaks cfg L out = []) ∧
    (∀ i : Nat, cfg.sampling * i < 2147483648 →
      binFrequency cfg i = ((cfg.sampling * i / cfg.window : Nat) : Int)) := by
  refine ⟨?_, findFFTPeaks_eq_filter cfg L out, findFFTPeaks_eq_nil cfg L out, ?_, ?_⟩
  · intro f m hmem
    rw [findFFTPeaks_eq_filter] at hmem
    rcases mem_foldl_mapAssign _ _ (f, m) _ [] hmem with h | ⟨i, hi, hp⟩
    · cases h
    · rw [List.mem_filter] at hi
      have hb := mem_scanned_bins _ _ hi.1
      have hthr : stepSize * (cfg.lsbError : F) < binMagnitude cfg L out i := by
        simpa using hi.2
      obtain ⟨c, hc, hmag⟩ := binMagnitude_eq cfg L out i (by omega)
      have hf : f = ((binFrequency cfg i : Int) : F) := congrArg Prod.fst hp
      have hm : m = binMagnitude cfg L out i := congrArg Prod.snd hp
      exact ⟨i, c, hb.1, hb.2, hc, hf, by rw [hm, hmag], by rw [hm]; exact hthr⟩
  · intro hsqrt hz
    apply findFFTPeaks_eq_nil
    intro i _ _
    rw [binMagnitude_zero cfg L out hsqrt hz i]
    exact mul_nonneg (by unfold stepSize; norm_num) (Nat.cast_nonneg _)
  · intro i hi
    unfold binFrequency
    have hprod : (cfg.sampling : Int) * (i : Int) = ((cfg.sampling * i : Nat) : Int) := by
      push_cast
      rfl
    rw [hprod, wrapInt32_eq _ (Int.natCast_nonneg _) (by exact_mod_cast hi),
      Int.tdiv_eq_ediv (Int.natCast_nonneg _) (Int.natCast_nonneg _), Int.natCast_div]

/-- A run of `findFFTPeaks` over the rationals: four coefficients, bin 1 of
magnitude 2 at 5 Hz. -/
theorem findFFTPeaks_example_mem :
    ((5 : ℚ), (2 : ℚ)) ∈ findFFTPeaks adcConfig ratLibm
      [⟨0, 0⟩, ⟨800, 0⟩, ⟨0, 0⟩, ⟨0, 0⟩] := by
  have h5 : binFrequency adcConfig 1 = 5 := by decide
  have hw : adcConfig.window = 800 := rfl
  have hl : adcConfig.lsbError = 3 := rfl
  simp [findFFTPeaks, findFFTPeaksStep, List.range', h5, ratLibm, stepSize, hw, hl,
    mapAssign]
  norm_num

/-- An instance of C6 over the rationals: the entry `(5, 2)` of a run with one
bin above the threshold is traced back to its bin, and four zero coefficients
give the empty map. -/
theorem findFFTPeaks_entries_witness :
    (((5 : ℚ), (2 : ℚ)) ∈ findFFTPeaks adcConfig ratLibm
        [⟨0, 0⟩, ⟨800, 0⟩, ⟨0, 0⟩, ⟨0, 0⟩] ∧
      ratLibm.sqrt 0 = 0 ∧
      ∀ c ∈ ([⟨0, 0⟩, ⟨0, 0⟩, ⟨0, 0⟩, ⟨0, 0⟩] : List (kiss_fft_cpx ℚ)), c.r = 0 ∧ c.i = 0) ∧
    (∃ (i : Nat) (c : kiss_fft_cpx ℚ), 1 ≤ i ∧
        i < ([⟨0, 0⟩, ⟨800, 0⟩, ⟨0, 0⟩, ⟨0, 0⟩] : List (kiss_fft_cpx ℚ)).length / 2 ∧
        ([⟨0, 0⟩, ⟨800, 0⟩, ⟨0, 0⟩, ⟨0, 0⟩] : List (kiss_fft_cpx ℚ))[i]? = some c ∧
        (5 : ℚ) = ((binFrequency adcConfig i : Int) : ℚ) ∧
        (2 : ℚ) = 2 * ratLibm.sqrt ((c.r / (adcConfig.window : ℚ)) ^ 2
          + (c.i / (adcConfig.window : ℚ)) ^ 2) ∧
        stepSize * (adcConfig.lsbError : ℚ) < 2) ∧
    findFFTPeaks adcConfig ratLibm [⟨0, 0⟩, ⟨0, 0⟩, ⟨0, 0⟩, ⟨0, 0⟩] = [] :=
  ⟨⟨findFFTPeaks_example_mem, rfl, by simp⟩,
    (findFFTPeaks_entries adcConfig ratLibm [⟨0, 0⟩, ⟨800, 0⟩, ⟨0, 0⟩, ⟨0, 0⟩]).1 5 2
      findFFTPeaks_example_mem,
    (findFFTPeaks_entries adcConfig ratLibm [⟨0, 0⟩, ⟨0, 0⟩, ⟨0, 0⟩, ⟨0, 0⟩]).2.2.2.1 rfl
      (by simp)⟩

theorem binFrequency_adc_cast (i : Nat) (hi : i < 400) :
    ((binFrequency adcConfig i : Int) : F) = 5 * (i : F) := by
  rw [(binFrequency_adc i hi).2]
  push_cast
  rfl

theorem findFFTPeaks_adc_eq (L : Libm F) (out : List (kiss_fft_cpx F))
    (hlen : out.length = adcConfig.window) :
    findFFTPeaks adcConfig L out
      = ((List.range' 1 399).filter
          (fun i => decide (stepSize * (adcConfig.lsbError : F)
            < binMagnitude adcConfig L out i))).map
          (fun i : Nat => (5 * (i : F), binMagnitude adcConfig L out i)) := by
  have hbins : out.length / 2 - 1 = 399 := by
    rw [hlen]
    rfl
  rw [findFFTPeaks_eq_filter, hbins]
  have hmem : ∀ i ∈ (List.range' 1 399).filter
      (fun i => decide (stepSize * (adcConfig.lsbError : F)
        < binMagnitude adcConfig L out i)), i < 400 := by
    intro i hi
    have := (List.mem_filter.mp hi).1
    rw [List.mem_range'_1] at this
    omega
  rw [foldl_mapAssign_increasing]
  · rw [List.nil_append]
    apply List.map_congr_left
    intro i hi
    rw [binFrequency_adc_cast i (hmem i hi)]
  · have hsorted := List.Pairwise.filter
      (fun i => decide (stepSize * (adcConfig.lsbError : F)
        < binMagnitude adcConfig L out i)) (List.pairwise_lt_range' 1 399)
    refine List.Pairwise.imp_of_mem ?_ hsorted
    intro a b ha hb hab
    rw [binFrequency_adc_cast a (hmem a ha), binFrequency_adc_cast b (hmem b hb)]
    have : (a : F) < (b : F) := Nat.cast_lt.mpr hab
    linarith
  · intro p hp
    cases hp

/-- C7. For `window` coefficients and the constants of the source, the product
`sampling * i` of every scanned bin `1 <= i < window / 2` fits an `int`, the
division by `window` is exact and the key is `5 * i`, the exact frequency
`sampling * i / window`; keys of different bins differ; and the map returned
is exactly the list of `(5 * i, magnitude of bin i)` over the scanned bins
whose magnitude exceeds `stepSize * lsbError`, in increasing order of `i`. -/
theorem findFFTPeaks_window_keys (L : Libm F) (out : List (kiss_fft_cpx F))
    (hlen : out.length = adcConfig.window) :
    (∀ i : Nat, 1 ≤ i → i < adcConfig.window / 2 →
      wrapInt32 ((adcConfig.sampling : Int) * (i : Int)) = (adcConfig.sampling : Int) * (i : Int) ∧
      (adcConfig.sampling : Int) * (i : Int) < 2147483648 ∧
      (adcConfig.window : Int) ∣ (adcConfig.sampling : Int) * (i : Int) ∧
      binFrequency adcConfig i = 5 * (i : Int) ∧
      ((binFrequency adcConfig i : Int) : F)
        = ((adcConfig.sampling : F) * (i : F)) / (adcConfig.window : F)) ∧
    (∀ i j : Nat, 1 ≤ i → i < adcConfig.window / 2 → 1 ≤ j → j < adcConfig.window / 2 →
      i ≠ j → ((binFrequency adcConfig i : Int) : F) ≠ ((binFrequency adcConfig j : Int) : F)) ∧
    findFFTPeaks adcConfig L out
      = ((List.range' 1 399).filter
          (fun i => decide (stepSize * (adcConfig.lsbError : F)
            < binMagnitude adcConfig L out i))).map
          (fun i : Nat => (5 * (i : F), binMagnitude adcConfig L out i)) := by
  have hhalf : adcConfig.window / 2 = 400 := rfl
  refine ⟨?_, ?_, findFFTPeaks_adc_eq L out hlen⟩
  · intro i _ hi
    rw [hhalf] at hi
    have hb := binFrequency_adc i hi
    refine ⟨hb.1, ?_, ?_, hb.2, ?_⟩
    · show (4000 : Int) * (i : Int) < 2147483648
      omega
    · show (800 : Int) ∣ (4000 : Int) * (i : Int)
      exact ⟨5 * (i : Int), by ring⟩
    · rw [binFrequency_adc_cast i hi]
      show 5 * (i : F) = (((4000 : Nat) : F) * (i : F)) / ((800 : Nat) : F)
      push_cast
      ring
  · intro i j _ hi _ hj hij heq
    rw [hhalf] at hi hj
    rw [binFrequency_adc_cast i hi, binFrequency_adc_cast j hj] at heq
    have h5 : (5 : F) ≠ 0 := by norm_num
    have := mul_left_cancel₀ h5 heq
    exact hij (Nat.cast_injective this)

/-- An instance of C7 over the rationals: 800 zero coefficients. -/
theorem findFFTPeaks_window_keys_witness :
    (List.replicate 800 (⟨0, 0⟩ : kiss_fft_cpx ℚ)).length = adcConfig.window ∧
    findFFTPeaks adcConfig ratLibm (List.replicate 800 (⟨0, 0⟩ : kiss_fft_cpx ℚ))
      = ((List.range' 1 399).filter
          (fun i => decide (stepSize * (adcConfig.lsbError : ℚ)
            < binMagnitude adcConfig ratLibm
                (List.replicate 800 (⟨0, 0⟩ : kiss_fft_cpx ℚ)) i))).map
          (fun i : Nat => (5 * (i : ℚ), binMagnitude adcConfig ratLibm
                (List.replicate 800 (⟨0, 0⟩ : kiss_fft_cpx ℚ)) i)) :=
  ⟨List.length_replicate _ _,
    (findFFTPeaks_window_keys ratLibm (List.replicate 800 (⟨0, 0⟩ : kiss_fft_cpx ℚ))
      (List.length_replicate _ _)).2.2⟩

/-- C9, as the code behaves. Order 40 is synthesised, but no scanned bin has
the frequency `40 * fundamentalFrequency = 2000`: that is the key of bin
`window / 2 = 400`, one past the last scanned bin. -/
theorem nyquist_harmonic_has_no_bin :
    (40 : Int) ∈ synthesizedOrders adcConfig ∧
    ¬ ∃ i : Nat, 1 ≤ i ∧ i < adcConfig.window / 2 ∧
      binFrequency adcConfig i = 40 * (adcConfig.fundamentalFrequency : Int) := by
  constructor
  · decide
  · rintro ⟨i, _, hi, hfreq⟩
    have hhalf : adcConfig.window / 2 = 400 := rfl
    rw [hhalf] at hi
    rw [(binFrequency_adc i hi).2] at hfreq
    have : (40 : Int) * (adcConfig.fundamentalFrequency : Int) = 2000 := rfl
    rw [this] at hfreq
    omega

/-- C9, amended. Every synthesised order other than 40 has a scanned bin whose
key is `h * fundamentalFrequency`; order 40 has the key of bin `window / 2`. -/
theorem synthesized_order_has_bin (h : Int) (hmem : h ∈ synthesizedOrders adcConfig)
    (hne : h ≠ 40) :
    (∃ i : Nat, 1 ≤ i ∧ i < adcConfig.window / 2 ∧
      binFrequency adcConfig i = h * (adcConfig.fundamentalFrequency : Int)) ∧
    binFrequency adcConfig (adcConfig.window / 2)
      = 40 * (adcConfig.fundamentalFrequency : Int) := by
  have hlist : synthesizedOrders adcConfig = [1, 2, 4, 5, 39, 40] := rfl
  rw [hlist] at hmem
  simp only [List.mem_cons, List.mem_singleton, List.not_mem_nil, or_false] at hmem
  refine ⟨?_, by decide⟩
  rcases hmem with rfl | rfl | rfl | rfl | rfl | rfl
  · exact ⟨10, by decide, by decide, by decide⟩
  · exact ⟨20, by decide, by decide, by decide⟩
  · exact ⟨40, by decide, by decide, by decide⟩
  · exact ⟨50, by decide, by decide, by decide⟩
  · exact ⟨390, by decide, by decide, by decide⟩
  · exact absurd rfl hne

/-- An instance of the amended C9: order 39 at 1950 Hz. -/
theorem synthesized_order_has_bin_witness :
    ((39 : Int) ∈ synthesizedOrders adcConfig ∧ (39 : Int) ≠ 40) ∧
    (∃ i : Nat, 1 ≤ i ∧ i < adcConfig.window / 2 ∧
      binFrequency adcConfig i = 39 * (adcConfig.fundamentalFrequency : Int)) ∧
    binFrequency adcConfig (adcConfig.window / 2)
      = 40 * (adcConfig.fundamentalFrequency : Int) :=
  ⟨⟨by decide, by decide⟩, synthesized_order_has_bin 39 (by decide) (by decide)⟩

end FindFFTPeaks

/-! ## Theorems about the waves of main -/

section MainWaves

variable {F : Type} [LinearOrderedField F] [FloorRing F]

/-- With every draw equal to 0 the samples of `makeWave` are the exact values. -/
theorem waveFrom_zero (cfg : Config) (L : Libm F) (mag position : Int) (rng : RandomSource)
    (hs : 1 ≤ cfg.samples) (hz : ∀ j, rng j = 0) :
    waveFrom cfg L mag position cfg.window 0 rng
      = (List.range cfg.window).map
          (fun n => exactValue cfg L mag position (phaseIndex cfg.samples n)) := by
  apply List.ext_getElem?
  intro n
  by_cases hn : n < cfg.window
  · rw [waveFrom_getElem? cfg L mag position n cfg.window 0 rng hn,
      iterate_nextIndex cfg.samples hs n, List.getElem?_map, List.getElem?_range hn, hz n]
    simp
  · rw [List.getElem?_eq_none (by rw [waveFrom_length]; omega),
      List.getElem?_eq_none (by rw [List.length_map, List.length_range]; omega)]

theorem makeWaves_zero (cfg : Config) (L : Libm F) (hs : 1 ≤ cfg.samples)
    (hw : 1 ≤ cfg.window) :
    ∀ (calls : List (Int × Int)) (rng : RandomSource), (∀ j, rng j = 0) →
      makeWaves cfg L calls rng
        = some (calls.map (fun call => (List.range cfg.window).map
            (fun n => exactValue cfg L call.1 call.2 (phaseIndex cfg.samples n))))
  | [], _, _ => rfl
  | call :: rest, rng, hz => by
    have hdrop : ∀ j, rng.drop cfg.window j = 0 := fun j => hz _
    simp only [makeWaves, makeWave_eq cfg L call.1 call.2 rng hs hw,
      makeWaves_zero cfg L hs hw rest _ hdrop, waveFrom_zero cfg L call.1 call.2 rng hs hz,
      List.map_cons]

theorem sum_of_samples (cfg : Config) (L : Libm F) (n : Nat) (hn : n < cfg.window)
    (calls : List (Int × Int)) :
    ((calls.map (fun call => (List.range cfg.window).map
        (fun n => exactValue cfg L call.1 call.2 (phaseIndex cfg.samples n)))).map
      (fun w => w.getD n 0)).sum
      = (calls.map (fun call =>
          exactValue cfg L call.1 call.2 (phaseIndex cfg.samples n))).sum := by
  rw [List.map_map]
  congr 1
  apply List.map_congr_left
  intro call _
  simp only [Function.comp_apply]
  rw [List.getD_eq_getElem?_getD, List.getElem?_map, List.getElem?_range hn]
  rfl

theorem sample_of_call (cfg : Config) (L : Libm F) (n : Nat) (hn : n < cfg.window)
    (calls : List (Int × Int)) (k : Nat) (call : Int × Int) (hk : calls[k]? = some call) :
    ∃ w : List F,
      (calls.map (fun call => (List.range cfg.window).map
        (fun n => exactValue cfg L call.1 call.2 (phaseIndex cfg.samples n))))[k]? = some w ∧
      w[n]? = some (exactValue cfg L call.1 call.2 (phaseIndex cfg.samples n)) := by
  refine ⟨_, by rw [List.getElem?_map, hk]; rfl, ?_⟩
  rw [List.getElem?_map, List.getElem?_range hn]
  rfl

theorem mainCalls_adc :
    mainCalls adcConfig = [(315, 1), (50, 2), (25, 4), (10, 5), (5, 39), (10, 40)] := rfl

/-- C8, amended. `main` calls `makeWave(value, order)` for every entry of the
harmonics map, so the amplitude of a harmonic is the value of its entry (50
for order 2, 25 for order 4), not that percentage of 315. With every draw 0,
sample `n` of each wave is `mag * sin(order * theta_n)` and the sum of the
samples `n` is `315 sin(theta_n) + 50 sin(2 theta_n) + 25 sin(4 theta_n)
+ 10 sin(5 theta_n) + 5 sin(39 theta_n) + 10 sin(40 theta_n)`. -/
theorem main_harmonic_amplitudes (L : Libm F) (n : Nat) (hn : n < adcConfig.window) :
    ∃ waves : List (List F),
      makeWaves adcConfig L (mainCalls adcConfig) zeroSource = some waves ∧
      mainCalls adcConfig = [(315, 1), (50, 2), (25, 4), (10, 5), (5, 39), (10, 40)] ∧
      (∀ (k : Nat) (mag order : Int), (mainCalls adcConfig)[k]? = some (mag, order) →
        ∃ w : List F, waves[k]? = some w ∧
          w[n]? = some ((mag : F) * L.sin ((order : F)
            * radiansAt adcConfig (phaseIndex adcConfig.samples n)))) ∧
      (waves.map (fun w => w.getD n 0)).sum
        = 315 * L.sin (1 * radiansAt adcConfig (phaseIndex adcConfig.samples n))
          + (50 * L.sin (2 * radiansAt adcConfig (phaseIndex adcConfig.samples n))
          + (25 * L.sin (4 * radiansAt adcConfig (phaseIndex adcConfig.samples n))
          + (10 * L.sin (5 * radiansAt adcConfig (phaseIndex adcConfig.samples n))
          + (5 * L.sin (39 * radiansAt adcConfig (phaseIndex adcConfig.samples n))
          + 10 * L.sin (40 * radiansAt adcConfig (phaseIndex adcConfig.samples n)))))) := by
  refine ⟨_, makeWaves_zero adcConfig L (by decide) (by decide) _ zeroSource (fun _ => rfl),
    mainCalls_adc, ?_, ?_⟩
  · intro k mag order hk
    exact sample_of_call adcConfig L n hn _ k (mag, order) hk
  · rw [sum_of_samples adcConfig L n hn, mainCalls_adc]
    simp only [List.map_cons, List.map_nil, List.sum_cons, List.sum_nil, exactValue]
    push_cast
    ring

/-- An instance of the amended C8: sample 10 over the rationals. -/
theorem main_harmonic_amplitudes_witness :
    10 < adcConfig.window ∧
    ∃ waves : List (List ℚ),
      makeWaves adcConfig ratLibm (mainCalls adcConfig) zeroSource = some waves ∧
      mainCalls adcConfig = [(315, 1), (50, 2), (25, 4), (10, 5), (5, 39), (10, 40)] ∧
      (∀ (k : Nat) (mag order : Int), (mainCalls adcConfig)[k]? = some (mag, order) →
        ∃ w : List ℚ, waves[k]? = some w ∧
          w[10]? = some ((mag : ℚ) * ratLibm.sin ((order : ℚ)
            * radiansAt adcConfig (phaseIndex adcConfig.samples 10)))) ∧
      (waves.map (fun w => w.getD 10 0)).sum
        = 315 * ratLibm.sin (1 * radiansAt adcConfig (phaseIndex adcConfig.samples 10))
          + (50 * ratLibm.sin (2 * radiansAt adcConfig (phaseIndex adcConfig.samples 10))
          + (25 * ratLibm.sin (4 * radiansAt adcConfig (phaseIndex adcConfig.samples 10))
          + (10 * ratLibm.sin (5 * radiansAt adcConfig (phaseIndex adcConfig.samples 10))
          + (5 * ratLibm.sin (39 * radiansAt adcConfig (phaseIndex adcConfig.samples 10))
          + 10 * ratLibm.sin (40 * radiansAt adcConfig (phaseIndex adcConfig.samples 10)))))) :=
  ⟨by decide, main_harmonic_amplitudes ratLibm 10 (by decide)⟩

theorem sin_quarter_turn_pos :
    0 < Real.sin (2 * radiansAt (F := ℝ) adcConfig (phaseIndex adcConfig.samples 10)) := by
  have hphase : phaseIndex adcConfig.samples 10 = 10 := rfl
  have hsamples : adcConfig.samples = 80 := rfl
  have hrad : (2 : ℝ) * radiansAt (F := ℝ) adcConfig (phaseIndex adcConfig.samples 10)
      = 314159265359 / 200000000000 := by
    rw [hphase]
    unfold radiansAt
    rw [hsamples]
    norm_num
  rw [hrad]
  apply Real.sin_pos_of_pos_of_lt_pi
  · norm_num
  · have := Real.pi_gt_three
    linarith

/-- C8, as the code behaves. Over the reals and with every draw 0, the wave
`main` makes for the entry `(2, 50)` of the harmonics map has the sample
`50 * sin(2 * theta_10)` at index 10, which is not
`(50 * 315 / 100) * sin(2 * theta_10)`. -/
theorem harmonic_amplitude_not_percent :
    ∃ (waves : List (List ℝ)) (w : List ℝ),
      ((2 : Int), (50 : Int)) ∈ adcConfig.harmonics ∧
      makeWaves adcConfig (Libm.mk Real.sin Real.sqrt) (mainCalls adcConfig) zeroSource
        = some waves ∧
      waves[1]? = some w ∧
      w[10]? = some (50 * Real.sin (2 * radiansAt adcConfig (phaseIndex adcConfig.samples 10))) ∧
      w[10]? ≠ some ((50 * 315 / 100 : ℝ)
        * Real.sin (2 * radiansAt adcConfig (phaseIndex adcConfig.samples 10))) := by
  obtain ⟨w, hw, hsample⟩ := sample_of_call adcConfig (Libm.mk Real.sin Real.sqrt) 10
    (by decide) (mainCalls adcConfig) 1 (50, 2) rfl
  have hval : w[10]?
      = some (50 * Real.sin (2 * radiansAt adcConfig (phaseIndex adcConfig.samples 10))) := by
    rw [hsample]
    simp only [exactValue]
    push_cast
    rfl
  refine ⟨_, w, by decide,
    makeWaves_zero adcConfig _ (by decide) (by decide) _ zeroSource (fun _ => rfl), hw, hval, ?_⟩
  rw [hval]
  intro heq
  have hpos := sin_quarter_turn_pos
  have := Option.some.inj heq
  nlinarith

end MainWaves

/-! ## Theorems about the phase of makeWave -/

section Phase

variable {F : Type} [LinearOrderedField F] [FloorRing F]

/-- One iteration of the loop away from the end of the window. -/
theorem makeWaveLoop_step (cfg : Config) (L : Libm F) (mag position : Int)
    (fuel i windowCount : Nat) (wave : List F) (rng : RandomSource)
    (hi : i ≤ cfg.samples) (hw : windowCount + 1 < cfg.window) :
    makeWaveLoop cfg L mag position (fuel + 1) i windowCount wave rng
      = makeWaveLoop cfg L mag position fuel (nextIndex cfg.samples i) (windowCount + 1)
          (wave ++ [(mag : F) * L.sin ((position : F) * radiansAt cfg i)
            + stepSize * ((rng 0 : Int) : F)]) rng.tail := by
  have hne : ¬ windowCount + 1 = cfg.window := by omega
  have hnext : (if i = cfg.samples ∧ windowCount + 1 < cfg.window then 0 else i) + 1
      = nextIndex cfg.samples i := by
    unfold nextIndex
    by_cases h : i = cfg.samples
    · simp [h, hw]
    · simp [h]
  simp only [makeWaveLoop, if_pos hi, if_neg hne, hnext]

theorem phaseIndex_decomp (samples n : Nat) :
    ∃ q : Nat, n = phaseIndex samples n + samples * q := by
  unfold phaseIndex
  by_cases h : n ≤ samples
  · exact ⟨0, by simp [h]⟩
  · refine ⟨(n - 1) / samples, ?_⟩
    rw [if_neg h]
    have := Nat.div_add_mod (n - 1) samples
    omega

theorem phaseIndex_mod (samples n : Nat) :
    phaseIndex samples n % samples = n % samples := by
  obtain ⟨q, hq⟩ := phaseIndex_decomp samples n
  conv_rhs => rw [hq]
  rw [Nat.add_mul_mod_self_left]

theorem makeWave_getElem? (cfg : Config) (L : Libm F) (mag position : Int)
    (rng : RandomSource) (n : Nat) (hs : 1 ≤ cfg.samples) (hn : n < cfg.window) :
    ∃ (wave : List F) (rest : RandomSource),
      makeWave cfg L mag position rng = some (wave, rest) ∧
      wave[n]? = some ((mag : F) * L.sin ((position : F)
        * radiansAt cfg (phaseIndex cfg.samples n)) + stepSize * ((rng n : Int) : F)) := by
  refine ⟨_, _, makeWave_eq cfg L mag position rng hs (by omega), ?_⟩
  rw [waveFrom_getElem? cfg L mag position n cfg.window 0 rng hn,
    iterate_nextIndex cfg.samples hs n]
  rfl

/-- C15. The loop variable of the iteration that pushes sample `n` is
`phaseIndex samples n`: `n` for `n <= samples` and `((n - 1) mod samples) + 1`
above. It is what `n` steps of the loop make of the initial `i = 0`, each
step going from `i` to `i + 1`, or from `samples` to `1` after the reset; it
is the index sample `n` is computed from; it lies in `0..samples`, is
congruent to `n` modulo `samples`, and advances by one modulo `samples` from
each sample to the next. -/
theorem makeWave_phase_index (cfg : Config) (L : Libm F) (mag position : Int)
    (rng : RandomSource) (n : Nat) (hs : 1 ≤ cfg.samples) (hn : n < cfg.window) :
    phaseIndex cfg.samples n = (if n ≤ cfg.samples then n else (n - 1) % cfg.samples + 1) ∧
    (nextIndex cfg.samples)^[n] 0 = phaseIndex cfg.samples n ∧
    (∀ (fuel i windowCount : Nat) (wave : List F) (r : RandomSource),
      i ≤ cfg.samples → windowCount + 1 < cfg.window →
      makeWaveLoop cfg L mag position (fuel + 1) i windowCount wave r
        = makeWaveLoop cfg L mag position fuel (nextIndex cfg.samples i) (windowCount + 1)
            (wave ++ [(mag : F) * L.sin ((position : F) * radiansAt cfg i)
              + stepSize * ((r 0 : Int) : F)]) r.tail) ∧
    (∃ (wave : List F) (rest : RandomSource),
      makeWave cfg L mag position rng = some (wave, rest) ∧
      wave[n]? = some ((mag : F) * L.sin ((position : F)
        * radiansAt cfg (phaseIndex cfg.samples n)) + stepSize * ((rng n : Int) : F))) ∧
    phaseIndex cfg.samples n ≤ cfg.samples ∧
    phaseIndex cfg.samples n % cfg.samples = n % cfg.samples ∧
    phaseIndex cfg.samples (n + 1) % cfg.samples
      = (phaseIndex cfg.samples n + 1) % cfg.samples :=
  ⟨rfl, iterate_nextIndex cfg.samples hs n,
    fun fuel i windowCount wave r hi hw =>
      makeWaveLoop_step cfg L mag position fuel i windowCount wave r hi hw,
    makeWave_getElem? cfg L mag position rng n hs hn,
    phaseIndex_le cfg.samples n hs,
    phaseIndex_mod cfg.samples n,
    by rw [phaseIndex_mod, Nat.add_mod, ← phaseIndex_mod cfg.samples n, ← Nat.add_mod]⟩

/-- An instance of C15: sample 81 of `makeWave(315, 1)` for the constants of
the source is computed from loop variable 1. -/
theorem makeWave_phase_index_witness :
    (1 ≤ adcConfig.samples ∧ 81 < adcConfig.window) ∧
    phaseIndex adcConfig.samples 81 = 1 ∧
    (nextIndex adcConfig.samples)^[81] 0 = phaseIndex adcConfig.samples 81 ∧
    phaseIndex adcConfig.samples 81 % adcConfig.samples = 81 % adcConfig.samples :=
  ⟨⟨by decide, by decide⟩, by decide,
    (makeWave_phase_index adcConfig ratLibm 315 1 zeroSource 81 (by decide) (by decide)).2.1,
    (makeWave_phase_index adcConfig ratLibm 315 1 zeroSource 81 (by decide)
      (by decide)).2.2.2.2.2.1⟩

/-- A function with period `T` has every integer multiple of `T` as a period. -/
theorem periodic_int_mul (f : F → F) (T : F) (hper : ∀ x, f (x + T) = f x) :
    ∀ (m : Int) (x : F), f (x + (m : F) * T) = f x := by
  intro m
  induction m using Int.induction_on with
  | hz => intro x; simp
  | hp k ih =>
    intro x
    have h := hper (x + ((k : Int) : F) * T)
    rw [ih x] at h
    rw [← h]
    congr 1
    push_cast
    ring
  | hn k ih =>
    intro x
    have h := hper (x + ((-(k : Int) - 1 : Int) : F) * T)
    rw [← ih x, ← h]
    congr 1
    push_cast
    ring

/-- The angles of two samples one period apart differ by a whole number of
turns, a turn being twice the constant the source uses for pi. -/
theorem radians_period_apart (cfg : Config) (order n : Nat) (hs : 1 ≤ cfg.samples)
    (hdiv : order ∣ cfg.samples) :
    ∃ m : Int,
      (((order : Nat) : Int) : F) * radiansAt cfg (phaseIndex cfg.samples (n + cfg.samples / order))
        = (((order : Nat) : Int) : F) * radiansAt cfg (phaseIndex cfg.samples n)
          + (m : F) * (2 * (314159265359 / 100000000000)) := by
  obtain ⟨q1, h1⟩ := phaseIndex_decomp cfg.samples (n + cfg.samples / order)
  obtain ⟨q0, h0⟩ := phaseIndex_decomp cfg.samples n
  have hmul : order * (cfg.samples / order) = cfg.samples := Nat.mul_div_cancel' hdiv
  have hsF : (cfg.samples : F) ≠ 0 := by
    have : (0 : F) < (cfg.samples : F) := by exact_mod_cast hs
    exact ne_of_gt this
  have e1 : ((n : F) + ((cfg.samples / order : Nat) : F))
      = ((phaseIndex cfg.samples (n + cfg.samples / order) : Nat) : F)
        + (cfg.samples : F) * (q1 : F) := by exact_mod_cast h1
  have e0 : (n : F) = ((phaseIndex cfg.samples n : Nat) : F) + (cfg.samples : F) * (q0 : F) := by
    exact_mod_cast h0
  have e2 : (order : F) * ((cfg.samples / order : Nat) : F) = (cfg.samples : F) := by
    exact_mod_cast hmul
  have hk : (order : F) * ((phaseIndex cfg.samples (n + cfg.samples / order) : Nat) : F)
      = (order : F) * ((phaseIndex cfg.samples n : Nat) : F)
        + (cfg.samples : F) * (1 - (order : F) * ((q1 : F) - (q0 : F))) := by
    linear_combination (order : F) * (e0 - e1) + e2
  have hturn : ∀ i : F, (order : F) * (i * (360 / (cfg.samples : F))
      * ((314159265359 / 100000000000) / 180))
      = ((order : F) * i) * (2 * (314159265359 / 100000000000) / (cfg.samples : F)) := by
    intro i
    field_simp
    ring
  refine ⟨1 - (order : Int) * ((q1 : Int) - (q0 : Int)), ?_⟩
  unfold radiansAt
  push_cast
  rw [hturn, hturn, hk]
  field_simp
  ring

/-- C11. With every draw 0 and a sine whose period is twice the constant the
source uses for pi (the constant read as pi), `makeWave(A, h)` has period
`samples / h` for every order `h >= 1` dividing `samples`: sample
`n + samples / h` equals sample `n` whenever both are in the window, also
when one of them is computed from loop variable `samples` and not `0`. -/
theorem makeWave_periodic (cfg : Config) (L : Libm F) (mag : Int) (order n : Nat)
    (rng : RandomSource) (hs : 1 ≤ cfg.samples) (_horder : 1 ≤ order)
    (hdiv : order ∣ cfg.samples) (hn : n + cfg.samples / order < cfg.window)
    (hz : ∀ j, rng j = 0)
    (hpi : ∀ x, L.sin (x + 2 * (314159265359 / 100000000000)) = L.sin x) :
    ∃ (wave : List F) (rest : RandomSource) (x : F),
      makeWave cfg L mag (order : Int) rng = some (wave, rest) ∧
      wave[n]? = some x ∧ wave[n + cfg.samples / order]? = some x := by
  have hn0 : n < cfg.window := Nat.lt_of_le_of_lt (Nat.le_add_right _ _) hn
  have hw : 1 ≤ cfg.window := by omega
  refine ⟨_, _, exactValue cfg L mag (order : Int) (phaseIndex cfg.samples n)
      + stepSize * ((rng n : Int) : F),
    makeWave_eq cfg L mag (order : Int) rng hs hw, ?_, ?_⟩
  · rw [waveFrom_getElem? cfg L mag (order : Int) n cfg.window 0 rng hn0,
      iterate_nextIndex cfg.samples hs n]
  · rw [waveFrom_getElem? cfg L mag (order : Int) (n + cfg.samples / order) cfg.window 0 rng hn,
      iterate_nextIndex cfg.samples hs (n + cfg.samples / order)]
    obtain ⟨m, hm⟩ := radians_period_apart (F := F) cfg order n hs hdiv
    have hsin := periodic_int_mul L.sin _ hpi m
      ((((order : Nat) : Int) : F) * radiansAt cfg (phaseIndex cfg.samples n))
    unfold exactValue
    rw [hm, hsin, hz n, hz (n + cfg.samples / order)]

/-- An instance of C11 over the reals: order 2 and sample 41 for the constants
of the source, so that sample 81 is computed after the reset of the loop
variable. The sine is the real sine rescaled so that the constant of the
source is its half period. -/
theorem makeWave_periodic_witness :
    (1 ≤ adcConfig.samples ∧ 1 ≤ 2 ∧ 2 ∣ adcConfig.samples ∧
      41 + adcConfig.samples / 2 < adcConfig.window ∧ (∀ j, zeroSource j = 0) ∧
      ∀ x : ℝ, Real.sin ((x + 2 * (314159265359 / 100000000000))
          * (Real.pi / (314159265359 / 100000000000)))
        = Real.sin (x * (Real.pi / (314159265359 / 100000000000)))) ∧
    ∃ (wave : List ℝ) (rest : RandomSource) (x : ℝ),
      makeWave adcConfig
        (Libm.mk (fun x => Real.sin (x * (Real.pi / (314159265359 / 100000000000)))) Real.sqrt)
        315 ((2 : Nat) : Int) zeroSource = some (wave, rest) ∧
      wave[41]? = some x ∧ wave[41 + adcConfig.samples / 2]? = some x :=
  have hpi : ∀ x : ℝ, Real.sin ((x + 2 * (314159265359 / 100000000000))
      * (Real.pi / (314159265359 / 100000000000)))
      = Real.sin (x * (Real.pi / (314159265359 / 100000000000))) := by
    intro x
    have h : (x + 2 * (314159265359 / 100000000000))
        * (Real.pi / (314159265359 / 100000000000))
        = x * (Real.pi / (314159265359 / 100000000000)) + 2 * Real.pi := by
      field_simp
      ring
    rw [h, Real.sin_add_two_pi]
  ⟨⟨by decide, by decide, by decide, by decide, fun _ => rfl, hpi⟩,
    makeWave_periodic adcConfig
      (Libm.mk (fun x => Real.sin (x * (Real.pi / (314159265359 / 100000000000)))) Real.sqrt)
      315 2 41 zeroSource (by decide) (by decide) (by decide) (by decide) (fun _ => rfl) hpi⟩

end Phase

/-! ## Algebra of formComplex -/

section FormComplexAlgebra

variable {F : Type} [LinearOrderedField F] [FloorRing F]

/-- The rounding of `formComplex` moves a value by at most half a step. -/
theorem round4_abs_le (x : F) : |((cRound (x * 10000) : Int) : F) / 10000 - x| ≤ 1 / 20000 := by
  have h := cRound_abs_le (x * 10000)
  have hdiv : ((cRound (x * 10000) : Int) : F) / 10000 - x
      = (((cRound (x * 10000) : Int) : F) - x * 10000) / 10000 := by
    field_simp
    ring
  rw [hdiv, abs_div, abs_of_pos (show (0 : F) < 10000 by norm_num),
    div_le_iff₀ (show (0 : F) < 10000 by norm_num)]
  linarith

theorem cRound_half : cRound (1 / 2 : F) = 1 := by
  unfold cRound
  rw [if_pos (by norm_num)]
  have h : (1 / 2 : F) + 1 / 2 = ((1 : Int) : F) := by norm_num
  rw [h, Int.floor_intCast]

theorem cRound_neg_half : cRound (-(1 / 2) : F) = -1 := by
  unfold cRound
  rw [if_neg (by norm_num)]
  have h : (-(1 / 2) : F) - 1 / 2 = ((-1 : Int) : F) := by norm_num
  rw [h, Int.ceil_intCast]

/-- The result of `formComplex` on two sequences, entry by entry. -/
theorem formComplex_pair (cfg : Config) (a b : List F) (ha : cfg.window + 1 ≤ a.length)
    (hb : cfg.window + 1 ≤ b.length) :
    ∃ out : List F, formComplex cfg [a, b] = some out ∧ out.length = cfg.window + 1 ∧
      ∀ i, i ≤ cfg.window →
        out[i]? = some (((cRound ((a.getD i 0 + b.getD i 0) * 10000) : Int) : F) / 10000) ∧
        out.getD i 0 = ((cRound ((a.getD i 0 + b.getD i 0) * 10000) : Int) : F) / 10000 := by
  have hlen : ∀ w ∈ [a, b], cfg.window + 1 ≤ w.length := by
    intro w hw
    rcases List.mem_cons.mp hw with h | h
    · rw [h]; exact ha
    · rcases List.mem_cons.mp h with h | h
      · rw [h]; exact hb
      · cases h
  refine ⟨_, formComplex_eq cfg [a, b] (List.cons_ne_nil _ _) hlen,
    by rw [List.length_map, List.length_range], ?_⟩
  intro i hi
  have hget : ((List.range (cfg.window + 1)).map (fun j =>
      ((cRound (([a, b].map (fun w => w.getD j 0)).sum * 10000) : Int) : F) / 10000))[i]?
      = some (((cRound ((a.getD i 0 + b.getD i 0) * 10000) : Int) : F) / 10000) := by
    rw [List.getElem?_map, List.getElem?_range (by omega)]
    simp
  refine ⟨hget, ?_⟩
  rw [List.getD_eq_getElem?_getD, hget]
  rfl

/-- C13. For any number `k >= 1` of all-zero sequences long enough to be read,
`formComplex` returns a sequence whose entries are all zero. -/
theorem formComplex_zero (cfg : Config) (waves : List (List F)) (k : Nat) (hk : 1 ≤ k)
    (hcount : waves.length = k) (hlen : ∀ w ∈ waves, cfg.window + 1 ≤ w.length)
    (hz : ∀ w ∈ waves, ∀ x ∈ w, x = 0) :
    ∃ out : List F, formComplex cfg waves = some out ∧ out.length = cfg.window + 1 ∧
      ∀ x ∈ out, x = 0 := by
  have hne : waves ≠ [] := by
    intro h
    rw [h] at hcount
    simp at hcount
    omega
  refine ⟨_, formComplex_eq cfg waves hne hlen, by rw [List.length_map, List.length_range], ?_⟩
  intro x hx
  rw [List.mem_map] at hx
  obtain ⟨j, _, hj⟩ := hx
  have hsum : (waves.map (fun w => w.getD j 0)).sum = 0 := by
    apply List.sum_eq_zero
    intro y hy
    rw [List.mem_map] at hy
    obtain ⟨w, hw, hwy⟩ := hy
    rw [← hwy, List.getD_eq_getElem?_getD]
    cases hget : w[j]? with
    | none => rfl
    | some v => exact hz w hw v (List.getElem?_mem hget)
  rw [← hj, hsum, zero_mul, cRound_zero]
  simp

/-- An instance of C13: three sequences of two zeros and a window of 1. -/
theorem formComplex_zero_witness :
    (1 ≤ 3 ∧ ([[0, 0], [0, 0], [0, 0]] : List (List ℚ)).length = 3 ∧
      (∀ w ∈ ([[0, 0], [0, 0], [0, 0]] : List (List ℚ)),
        (Config.mk 4000 3 1 50 []).window + 1 ≤ w.length) ∧
      ∀ w ∈ ([[0, 0], [0, 0], [0, 0]] : List (List ℚ)), ∀ x ∈ w, x = 0) ∧
    ∃ out : List ℚ,
      formComplex (Config.mk 4000 3 1 50 []) [[0, 0], [0, 0], [0, 0]] = some out ∧
      out.length = (Config.mk 4000 3 1 50 []).window + 1 ∧ ∀ x ∈ out, x = 0 :=
  ⟨⟨by decide, rfl, by simp, by simp⟩,
    formComplex_zero (Config.mk 4000 3 1 50 []) [[0, 0], [0, 0], [0, 0]] 3 (by decide) rfl
      (by simp) (by simp)⟩

theorem formComplex_comm (cfg : Config) (a b : List F) (ha : cfg.window + 1 ≤ a.length)
    (hb : cfg.window + 1 ≤ b.length) :
    formComplex cfg [b, a] = formComplex cfg [a, b] := by
  have hlen : ∀ (u v : List F), cfg.window + 1 ≤ u.length → cfg.window + 1 ≤ v.length →
      ∀ w ∈ [u, v], cfg.window + 1 ≤ w.length := by
    intro u v hu hv w hw
    rcases List.mem_cons.mp hw with h | h
    · rw [h]; exact hu
    · rcases List.mem_cons.mp h with h | h
      · rw [h]; exact hv
      · cases h
  rw [formComplex_eq cfg [b, a] (List.cons_ne_nil _ _) (hlen b a hb ha),
    formComplex_eq cfg [a, b] (List.cons_ne_nil _ _) (hlen a b ha hb)]
  congr 1
  apply List.map_congr_left
  intro j _
  simp [add_comm]

/-- The two ways of combining three values differ by at most two steps. -/
theorem round4_assoc (a b c : F) :
    |((cRound ((((cRound ((a + b) * 10000) : Int) : F) / 10000 + c) * 10000) : Int) : F) / 10000
      - ((cRound ((a + ((cRound ((b + c) * 10000) : Int) : F) / 10000) * 10000) : Int) : F)
          / 10000| ≤ 2 / 10000 := by
  have h1 := abs_le.mp (round4_abs_le (a + b))
  have h2 := abs_le.mp (round4_abs_le (b + c))
  have h3 := abs_le.mp (round4_abs_le (((cRound ((a + b) * 10000) : Int) : F) / 10000 + c))
  have h4 := abs_le.mp (round4_abs_le (a + ((cRound ((b + c) * 10000) : Int) : F) / 10000))
  rw [abs_le]
  constructor <;> linarith [h1.1, h1.2, h2.1, h2.2, h3.1, h3.2, h4.1, h4.2]

/-- C12, amended. For sequences long enough to be combined, `formComplex(a, b)`
and `formComplex(b, a)` are the same sequence, and every entry of
`formComplex(formComplex(a, b), c)` is within two rounding steps, `0.0002`, of
the entry of `formComplex(a, formComplex(b, c))`. -/
theorem formComplex_comm_assoc (cfg : Config) (a b c : List F)
    (ha : cfg.window + 1 ≤ a.length) (hb : cfg.window + 1 ≤ b.length)
    (hc : cfg.window + 1 ≤ c.length) :
    ∃ ab bc left right : List F,
      formComplex cfg [a, b] = some ab ∧ formComplex cfg [b, a] = some ab ∧
      formComplex cfg [b, c] = some bc ∧
      formComplex cfg [ab, c] = some left ∧ formComplex cfg [a, bc] = some right ∧
      ∀ i, i ≤ cfg.window → ∃ x y : F, left[i]? = some x ∧ right[i]? = some y ∧
        |x - y| ≤ 2 / 10000 := by
  obtain ⟨ab, hab, hablen, habi⟩ := formComplex_pair cfg a b ha hb
  obtain ⟨bc, hbc, hbclen, hbci⟩ := formComplex_pair cfg b c hb hc
  obtain ⟨left, hleft, _, hlefti⟩ := formComplex_pair cfg ab c (le_of_eq hablen.symm) hc
  obtain ⟨right, hright, _, hrighti⟩ := formComplex_pair cfg a bc ha (le_of_eq hbclen.symm)
  refine ⟨ab, bc, left, right, hab, by rw [formComplex_comm cfg a b ha hb, hab], hbc, hleft,
    hright, ?_⟩
  intro i hi
  refine ⟨_, _, (hlefti i hi).1, (hrighti i hi).1, ?_⟩
  rw [(habi i hi).2, (hbci i hi).2]
  exact round4_assoc (a.getD i 0) (b.getD i 0) (c.getD i 0)

/-- An instance of the amended C12: three sequences of two entries and a
window of 1. -/
theorem formComplex_comm_assoc_witness :
    ((Config.mk 4000 3 1 50 []).window + 1 ≤ ([1, 2] : List ℚ).length ∧
      (Config.mk 4000 3 1 50 []).window + 1 ≤ ([3, 4] : List ℚ).length ∧
      (Config.mk 4000 3 1 50 []).window + 1 ≤ ([5, 6] : List ℚ).length) ∧
    ∃ ab bc left right : List ℚ,
      formComplex (Config.mk 4000 3 1 50 []) [[1, 2], [3, 4]] = some ab ∧
      formComplex (Config.mk 4000 3 1 50 []) [[3, 4], [1, 2]] = some ab ∧
      formComplex (Config.mk 4000 3 1 50 []) [[3, 4], [5, 6]] = some bc ∧
      formComplex (Config.mk 4000 3 1 50 []) [ab, [5, 6]] = some left ∧
      formComplex (Config.mk 4000 3 1 50 []) [[1, 2], bc] = some right ∧
      ∀ i, i ≤ (Config.mk 4000 3 1 50 []).window → ∃ x y : ℚ,
        left[i]? = some x ∧ right[i]? = some y ∧ |x - y| ≤ 2 / 10000 :=
  ⟨⟨by decide, by decide, by decide⟩,
    formComplex_comm_assoc (Config.mk 4000 3 1 50 []) [1, 2] [3, 4] [5, 6]
      (by decide) (by decide) (by decide)⟩

/-- C12, as the code behaves. For the constants of the source and the constant
sequences `a = -0.00005`, `b = 0`, `c = 0.00005` of 801 entries, entry 0 of
`formComplex(formComplex(a, b), c)` is `-0.0001` and entry 0 of
`formComplex(a, formComplex(b, c))` is `0.0001`: they differ by `0.0002`, more
than one rounding step. -/
theorem formComplex_assoc_two_steps :
    ∃ ab bc left right : List ℚ,
      formComplex adcConfig
        [List.replicate 801 (-(1 / 20000) : ℚ), List.replicate 801 (0 : ℚ)] = some ab ∧
      formComplex adcConfig
        [List.replicate 801 (0 : ℚ), List.replicate 801 (1 / 20000 : ℚ)] = some bc ∧
      formComplex adcConfig [ab, List.replicate 801 (1 / 20000 : ℚ)] = some left ∧
      formComplex adcConfig [List.replicate 801 (-(1 / 20000) : ℚ), bc] = some right ∧
      left[0]? = some (-(1 / 10000) : ℚ) ∧ right[0]? = some (1 / 10000 : ℚ) ∧
      ¬ |(-(1 / 10000) : ℚ) - 1 / 10000| ≤ 1 / 10000 := by
  have hlen : ∀ x : ℚ, adcConfig.window + 1 ≤ (List.replicate 801 x).length := by
    intro x
    rw [List.length_replicate]
    decide
  have hget : ∀ x : ℚ, (List.replicate 801 x).getD 0 0 = x := fun _ => rfl
  obtain ⟨ab, hab, hablen, habi⟩ := formComplex_pair adcConfig _ _
    (hlen (-(1 / 20000))) (hlen 0)
  obtain ⟨bc, hbc, hbclen, hbci⟩ := formComplex_pair adcConfig _ _
    (hlen 0) (hlen (1 / 20000))
  obtain ⟨left, hleft, _, hlefti⟩ := formComplex_pair adcConfig ab _
    (le_of_eq hablen.symm) (hlen (1 / 20000))
  obtain ⟨right, hright, _, hrighti⟩ := formComplex_pair adcConfig _ bc
    (hlen (-(1 / 20000))) (le_of_eq hbclen.symm)
  have e1 : ((-(1 / 20000) : ℚ) + 0) * 10000 = -(1 / 2) := by norm_num
  have e2 : ((0 : ℚ) + 1 / 20000) * 10000 = 1 / 2 := by norm_num
  have e3 : ((((-1 : Int) : ℚ)) / 10000 + 1 / 20000) * 10000 = -(1 / 2) := by norm_num
  have e4 : ((-(1 / 20000) : ℚ) + ((1 : Int) : ℚ) / 10000) * 10000 = 1 / 2 := by norm_num
  have hab0 : ab.getD 0 0 = ((-1 : Int) : ℚ) / 10000 := by
    rw [(habi 0 (Nat.zero_le _)).2, hget, hget, e1, cRound_neg_half]
  have hbc0 : bc.getD 0 0 = ((1 : Int) : ℚ) / 10000 := by
    rw [(hbci 0 (Nat.zero_le _)).2, hget, hget, e2, cRound_half]
  refine ⟨ab, bc, left, right, hab, hbc, hleft, hright, ?_, ?_, by norm_num [abs_le]⟩
  · rw [(hlefti 0 (Nat.zero_le _)).1, hab0, hget, e3, cRound_neg_half]
    norm_num
  · rw [(hrighti 0 (Nat.zero_le _)).1, hbc0, hget, e4, cRound_half]
    norm_num

end FormComplexAlgebra

/-! ## Theorems about fft -/

section Fft

variable {F : Type} [LinearOrderedField F] [FloorRing F]

end Fft

/-! ## Theorems about fullFFT -/

section FullFFT

variable {F : Type} [LinearOrderedField F] [FloorRing F]

theorem fullFFTMagnitude_length (cfg : Config) (L : Libm F) (out : List (kiss_fft_cpx F)) :
    (fullFFTMagnitude cfg L out).length = out.length / 2 - 1 := by
  unfold fullFFTMagnitude
  rw [List.length_map, List.length_range']

/-- Entry `q` of `magnitude` is the magnitude `findFFTPeaks` computes for bin
`q + 1`. -/
theorem fullFFTMagnitude_getElem? (cfg : Config) (L : Libm F) (out : List (kiss_fft_cpx F))
    (q : Nat) (hq : q < out.length / 2 - 1) :
    (fullFFTMagnitude cfg L out)[q]? = some (binMagnitude cfg L out (q + 1)) := by
  unfold fullFFTMagnitude binMagnitude
  rw [List.getElem?_map, List.getElem?_range' 1 1 hq]
  simp only [Option.map_some', one_mul, Nat.add_comm 1 q, mul_comm (L.sqrt _) 2]

theorem fullFFTXValues_length (cfg : Config) :
    (fullFFTXValues cfg : List F).length = cfg.window / 2 + 1 := by
  unfold fullFFTXValues
  rw [List.length_map, List.length_range]

/-- Entry `k` of `xValues` is the key `findFFTPeaks` uses for bin `k`. -/
theorem fullFFTXValues_getElem? (cfg : Config) (k : Nat) (hk : k < cfg.window / 2 + 1) :
    (fullFFTXValues cfg : List F)[k]? = some ((binFrequency cfg k : Int) : F) := by
  unfold fullFFTXValues binFrequency
  rw [List.getElem?_map, List.getElem?_range hk]
  rfl

/-- A print loop whose accesses are all in range prints one line for every
entry of `magnitude` above `stepSize`. -/
theorem fullFFTPrintLoop_eq (magnitude xValues : List F) :
    ∀ (k q : Nat) (printed : List (F × F)), q + k ≤ magnitude.length →
      q + k + 1 ≤ xValues.length →
      fullFFTPrintLoop magnitude xValues k q printed
        = some (printed ++ ((List.range' q k).filter
            (fun j => decide (stepSize < magnitude.getD j 0))).map
            (fun j => (xValues.getD (j + 1) 0, magnitude.getD j 0))) := by
  intro k
  induction k with
  | zero => intro q printed _ _; simp [fullFFTPrintLoop]
  | succ k ih =>
    intro q printed hm hx
    have hq : q < magnitude.length := by omega
    have hq1 : q + 1 < xValues.length := by omega
    have hmq : magnitude[q]? = some (magnitude.getD q 0) := by
      rw [List.getD_eq_getElem?_getD, List.getElem?_eq_getElem hq]
      rfl
    have hxq : xValues[q + 1]? = some (xValues.getD (q + 1) 0) := by
      rw [List.getD_eq_getElem?_getD, List.getElem?_eq_getElem hq1]
      rfl
    simp only [fullFFTPrintLoop, hmq, hxq, gt_iff_lt]
    rw [List.range'_succ, List.filter_cons]
    by_cases hthr : stepSize < magnitude.getD q 0
    · rw [if_pos hthr, if_pos (by simpa using hthr), ih (q + 1) _ (by omega) (by omega)]
      simp
    · rw [if_neg hthr, if_neg (by simpa using hthr), ih (q + 1) _ (by omega) (by omega)]

theorem fullFFT_eq (cfg : Config) (L : Libm F) (out : List (kiss_fft_cpx F))
    (h : out.length / 2 ≤ cfg.window / 2 + 1) :
    fullFFT cfg L out
      = some (((List.range' 0 (out.length / 2 - 1)).filter
          (fun j => decide (stepSize < (fullFFTMagnitude cfg L out).getD j 0))).map
          (fun j => ((fullFFTXValues cfg).getD (j + 1) 0,
            (fullFFTMagnitude cfg L out).getD j 0))) := by
  unfold fullFFT
  rw [fullFFTPrintLoop_eq _ _ _ 0 [] (by omega)
    (by rw [fullFFTMagnitude_length, fullFFTXValues_length]; omega),
    fullFFTMagnitude_length]
  rfl

/-- Every entry of the map of `findFFTPeaks` comes from a scanned bin above the
threshold. -/
theorem mem_findFFTPeaks (cfg : Config) (L : Libm F) (out : List (kiss_fft_cpx F)) (f m : F)
    (hmem : (f, m) ∈ findFFTPeaks cfg L out) :
    ∃ i : Nat, 1 ≤ i ∧ i < out.length / 2 ∧ f = ((binFrequency cfg i : Int) : F) ∧
      m = binMagnitude cfg L out i ∧ stepSize * (cfg.lsbError : F) < m := by
  rw [findFFTPeaks_eq_filter] at hmem
  rcases mem_foldl_mapAssign _ _ (f, m) _ [] hmem with h | ⟨i, hi, hp⟩
  · cases h
  · rw [List.mem_filter] at hi
    have hb := mem_scanned_bins _ _ hi.1
    have hthr : stepSize * (cfg.lsbError : F) < binMagnitude cfg L out i := by
      simpa using hi.2
    have hf : f = ((binFrequency cfg i : Int) : F) := congrArg Prod.fst hp
    have hm : m = binMagnitude cfg L out i := congrArg Prod.snd hp
    exact ⟨i, hb.1, hb.2, hf, hm, by rw [hm]; exact hthr⟩

theorem stepSize_le_threshold :
    (stepSize : F) ≤ stepSize * (adcConfig.lsbError : F) := by
  show (stepSize : F) ≤ stepSize * ((3 : Nat) : F)
  unfold stepSize
  norm_num

/-- The line `fullFFT` prints for a bin that `findFFTPeaks` keeps. -/
theorem fullFFT_prints_bin (L : Libm F) (out : List (kiss_fft_cpx F))
    (hlen : out.length = adcConfig.window) (i : Nat) (hi1 : 1 ≤ i) (hi2 : i < out.length / 2)
    (hthr : stepSize * (adcConfig.lsbError : F) < binMagnitude adcConfig L out i) :
    ∃ printed : List (F × F), fullFFT adcConfig L out = some printed ∧
      (((binFrequency adcConfig i : Int) : F), binMagnitude adcConfig L out i) ∈ printed := by
  have hhalf : out.length / 2 = 400 := by rw [hlen]; rfl
  have hwin : adcConfig.window / 2 + 1 = 401 := rfl
  rw [hhalf] at hi2
  obtain ⟨q, rfl⟩ : ∃ q, i = q + 1 := ⟨i - 1, by omega⟩
  have hq : q < out.length / 2 - 1 := by omega
  have hmag : (fullFFTMagnitude adcConfig L out).getD q 0
      = binMagnitude adcConfig L out (q + 1) := by
    rw [List.getD_eq_getElem?_getD, fullFFTMagnitude_getElem? adcConfig L out q hq]
    rfl
  have hx : (fullFFTXValues adcConfig : List F).getD (q + 1) 0
      = ((binFrequency adcConfig (q + 1) : Int) : F) := by
    rw [List.getD_eq_getElem?_getD,
      fullFFTXValues_getElem? adcConfig (q + 1) (by rw [hwin]; omega)]
    rfl
  refine ⟨_, fullFFT_eq adcConfig L out (by rw [hhalf, hwin]; omega), ?_⟩
  rw [List.mem_map]
  refine ⟨q, ?_, by rw [hx, hmag]⟩
  rw [List.mem_filter, List.mem_range'_1]
  refine ⟨⟨Nat.zero_le _, by omega⟩, ?_⟩
  rw [hmag]
  have := stepSize_le_threshold (F := F)
  simpa using lt_of_le_of_lt this hthr

/-- C16. For `window` coefficients and the constants of the source, every
entry `(f, m)` of the map of `findFFTPeaks` is a line `fullFFT` prints, with the
same frequency and magnitude. Entry `q` of `magnitude` is the magnitude
`findFFTPeaks` computes for bin `q + 1`, entry `q + 1` of `xValues` is the key
`findFFTPeaks` uses for that bin, and the threshold `stepSize` of `fullFFT` is
not above the threshold `stepSize * lsbError` of `findFFTPeaks`. -/
theorem findFFTPeaks_subset_fullFFT (L : Libm F) (out : List (kiss_fft_cpx F))
    (hlen : out.length = adcConfig.window) :
    (∀ f m : F, (f, m) ∈ findFFTPeaks adcConfig L out →
      ∃ printed : List (F × F), fullFFT adcConfig L out = some printed ∧
        (f, m) ∈ printed) ∧
    (∀ q, q < (fullFFTMagnitude adcConfig L out).length →
      (fullFFTMagnitude adcConfig L out)[q]? = some (binMagnitude adcConfig L out (q + 1)) ∧
      (fullFFTXValues adcConfig : List F)[q + 1]?
        = some ((binFrequency adcConfig (q + 1) : Int) : F)) ∧
    (stepSize : F) ≤ stepSize * (adcConfig.lsbError : F) := by
  refine ⟨?_, ?_, stepSize_le_threshold⟩
  · intro f m hmem
    obtain ⟨i, hi1, hi2, hf, hm, hthr⟩ := mem_findFFTPeaks adcConfig L out f m hmem
    rw [hm] at hthr
    rw [hf, hm]
    exact fullFFT_prints_bin L out hlen i hi1 hi2 hthr
  · intro q hq
    rw [fullFFTMagnitude_length] at hq
    have hhalf : out.length / 2 = 400 := by rw [hlen]; rfl
    have hwin : adcConfig.window / 2 + 1 = 401 := rfl
    exact ⟨fullFFTMagnitude_getElem? adcConfig L out q hq,
      fullFFTXValues_getElem? adcConfig (q + 1) (by rw [hwin]; omega)⟩

/-- A run of `findFFTPeaks` over the rationals on 800 coefficients `800 + 0i`:
bin 1 has magnitude 2 and key 5. -/
theorem findFFTPeaks_constant_mem :
    ((5 : ℚ), (2 : ℚ)) ∈ findFFTPeaks adcConfig ratLibm
      (List.replicate 800 (⟨800, 0⟩ : kiss_fft_cpx ℚ)) := by
  have hget : (List.replicate 800 (⟨800, 0⟩ : kiss_fft_cpx ℚ)).getD 1 ⟨0, 0⟩ = ⟨800, 0⟩ := rfl
  have hmag : binMagnitude adcConfig ratLibm
      (List.replicate 800 (⟨800, 0⟩ : kiss_fft_cpx ℚ)) 1 = 2 := by
    unfold binMagnitude
    rw [hget]
    show (2 : ℚ) * ((800 / ((800 : Nat) : ℚ)) ^ 2 + (0 / ((800 : Nat) : ℚ)) ^ 2) = 2
    norm_num
  have hlen : (List.replicate 800 (⟨800, 0⟩ : kiss_fft_cpx ℚ)).length = adcConfig.window :=
    List.length_replicate _ _
  rw [findFFTPeaks_adc_eq ratLibm (List.replicate 800 (⟨800, 0⟩ : kiss_fft_cpx ℚ)) hlen,
    List.mem_map]
  refine ⟨1, ?_, by rw [hmag]; norm_num⟩
  rw [List.mem_filter, List.mem_range'_1, hmag]
  refine ⟨⟨by decide, by decide⟩, ?_⟩
  show decide (stepSize * ((3 : Nat) : ℚ) < 2) = true
  unfold stepSize
  norm_num

/-- An instance of C16 over the rationals: for 800 coefficients `800 + 0i` the
entry `(5, 2)` of the map of `findFFTPeaks` is a line of `fullFFT`. -/
theorem findFFTPeaks_subset_fullFFT_witness :
    ((List.replicate 800 (⟨800, 0⟩ : kiss_fft_cpx ℚ)).length = adcConfig.window ∧
      ((5 : ℚ), (2 : ℚ)) ∈ findFFTPeaks adcConfig ratLibm
        (List.replicate 800 (⟨800, 0⟩ : kiss_fft_cpx ℚ))) ∧
    ∃ printed : List (ℚ × ℚ),
      fullFFT adcConfig ratLibm (List.replicate 800 (⟨800, 0⟩ : kiss_fft_cpx ℚ))
        = some printed ∧ ((5 : ℚ), (2 : ℚ)) ∈ printed :=
  ⟨⟨List.length_replicate _ _, findFFTPeaks_constant_mem⟩,
    (findFFTPeaks_subset_fullFFT ratLibm (List.replicate 800 (⟨800, 0⟩ : kiss_fft_cpx ℚ))
      (List.length_replicate _ _)).1 5 2 findFFTPeaks_constant_mem⟩

/-- C17. For at most `window + 3` coefficients and the constants of the
source, `xValues` has `window / 2 + 1` entries, `magnitude` has
`out.size() / 2 - 1` entries (none below two coefficients), every access
`magnitude.at(q)` and `xValues.at(q + 1)` with `q < magnitude.size()` is in
range, and `fullFFT` runs to its end without throwing. -/
theorem fullFFT_in_range (L : Libm F) (out : List (kiss_fft_cpx F))
    (hlen : out.length ≤ adcConfig.window + 3) :
    (fullFFTXValues adcConfig : List F).length = adcConfig.window / 2 + 1 ∧
    (fullFFTMagnitude adcConfig L out).length = out.length / 2 - 1 ∧
    (out.length < 2 → (fullFFTMagnitude adcConfig L out).length = 0) ∧
    (∀ q, q < (fullFFTMagnitude adcConfig L out).length →
      q < (fullFFTMagnitude adcConfig L out).length ∧
      q + 1 < (fullFFTXValues adcConfig : List F).length ∧
      (∃ m : F, (fullFFTMagnitude adcConfig L out)[q]? = some m) ∧
      ∃ x : F, (fullFFTXValues adcConfig : List F)[q + 1]? = some x) ∧
    ∃ printed : List (F × F), fullFFT adcConfig L out = some printed := by
  have hwin : adcConfig.window = 800 := rfl
  have hhalf : adcConfig.window / 2 + 1 = 401 := rfl
  rw [hwin] at hlen
  have hmlen := fullFFTMagnitude_length adcConfig L out
  have hxlen := fullFFTXValues_length (F := F) adcConfig
  refine ⟨hxlen, hmlen, fun h => by rw [hmlen]; omega, ?_,
    ⟨_, fullFFT_eq adcConfig L out (by rw [hhalf]; omega)⟩⟩
  intro q hq
  have hq2 : q < out.length / 2 - 1 := by rw [hmlen] at hq; exact hq
  have hq1 : q + 1 < adcConfig.window / 2 + 1 := by rw [hhalf]; omega
  exact ⟨hq, by rw [hxlen]; exact hq1,
    ⟨_, fullFFTMagnitude_getElem? adcConfig L out q hq2⟩,
    ⟨_, fullFFTXValues_getElem? adcConfig (q + 1) hq1⟩⟩

/-- An instance of C17 over the rationals: 803 zero coefficients. -/
theorem fullFFT_in_range_witness :
    (List.replicate 803 (⟨0, 0⟩ : kiss_fft_cpx ℚ)).length ≤ adcConfig.window + 3 ∧
    (fullFFTMagnitude adcConfig ratLibm
      (List.replicate 803 (⟨0, 0⟩ : kiss_fft_cpx ℚ))).length
      = (List.replicate 803 (⟨0, 0⟩ : kiss_fft_cpx ℚ)).length / 2 - 1 ∧
    ∃ printed : List (ℚ × ℚ),
      fullFFT adcConfig ratLibm (List.replicate 803 (⟨0, 0⟩ : kiss_fft_cpx ℚ)) = some printed :=
  have h : (List.replicate 803 (⟨0, 0⟩ : kiss_fft_cpx ℚ)).length ≤ adcConfig.window + 3 := by
    rw [List.length_replicate]
    decide
  ⟨h, (fullFFT_in_range ratLibm (List.replicate 803 (⟨0, 0⟩ : kiss_fft_cpx ℚ)) h).2.1,
    (fullFFT_in_range ratLibm (List.replicate 803 (⟨0, 0⟩ : kiss_fft_cpx ℚ)) h).2.2.2.2⟩

end FullFFT

end AdcHarmonics
